import Mathlib

/-!
# Verification of the MiniC AST-to-IR lowering (`IRGenerator.cpp`) and the
# `GlobalVariable` value class

This development shallowly embeds the middle-end of the MiniC compiler:

* the linear IR instruction language produced by `IRGenerator`
  (`Instr`, with operands `Operand`),
* a small-step machine over a linear instruction list (`Step`, `Path`),
  used to state and prove the semantic consequences the specification
  claims for the generated code (short-circuit evaluation, the implicit
  `main`-returns-zero rule, array address arithmetic),
* the lowering functions themselves, each translated from the
  corresponding `IRGenerator::ir_*` handler, with fresh labels, fresh
  temporaries and anonymous local variables drawn from a single `Nat`
  counter (modelling the freshness of `new LabelInstruction`,
  instruction values and `Module::newVarValue`),
* the `GlobalVariable` record from `GlobalVariable.h`.

Machine integers: the C++ sources compute in 32-bit signed integers; the
claims under verification do not concern wrap-around, so arithmetic is
modelled on unbounded `Int`.
-/

namespace MiniC

/-- Binary IR opcodes, mirroring `IRInstOperator`'s binary cases
(`IRINST_OP_ADD_I`, `SUB_I`, `MUL_I`, `DIV_I`, `MOD_I` and the six
comparison operators used by `ir_equal` … `ir_greater_equal`). -/
inductive BinOp where
  | add | sub | mul | div | mod
  | cmpEq | cmpNe | cmpLt | cmpLe | cmpGt | cmpGe
  deriving DecidableEq, Repr

/-- Unary IR opcodes (`IRINST_OP_NEG_I`, `IRINST_OP_DEREF`). -/
inductive UnOp where
  | neg | deref
  deriving DecidableEq, Repr

/-- An instruction operand: an interned integer constant
(`Module::newConstInt`), a named variable (`LocalVariable` /
`GlobalVariable`, addressed by name), a temporary (an instruction value or
anonymous local, identified by its fresh allocation number), or a formal
parameter (`FormalParam`, identified by its position). -/
inductive Operand where
  | cst (n : Int)
  | var (s : String)
  | temp (t : Nat)
  | param (i : Nat)
  deriving DecidableEq, Repr

/-- Linear IR instructions, mirroring the `Instruction` subclasses used by
`IRGenerator`: `EntryInstruction`, `ExitInstruction`, `LabelInstruction`,
`GotoInstruction`, `CondGotoInstruction`, `BinaryInstruction`,
`UnaryInstruction`, `MoveInstruction` and `FuncCallInstruction`.  Labels
are identified by their fresh allocation number. -/
inductive Instr where
  | entry
  | exitI (ret : Option Operand)
  | label (l : Nat)
  | goto (l : Nat)
  | condGoto (c : Operand) (t f : Nat)
  | binary (dst : Nat) (op : BinOp) (a b : Operand)
  | unary (dst : Nat) (op : UnOp) (a : Operand)
  | move (dst src : Operand)
  | funcCall (dst : Nat) (callee : String) (args : List Operand)
  deriving DecidableEq, Repr

/-- Semantics of a binary opcode.  Comparison results are the 0/1 encoding
of `Bool` values used by the back end (`IntegerType::getTypeBool` lowered
to 32-bit integers).  `div`/`mod` use C truncated division, matching the
target's `sdiv`. -/
def applyBin : BinOp → Int → Int → Int
  | .add, a, b => a + b
  | .sub, a, b => a - b
  | .mul, a, b => a * b
  | .div, a, b => Int.tdiv a b
  | .mod, a, b => Int.tmod a b
  | .cmpEq, a, b => if a = b then 1 else 0
  | .cmpNe, a, b => if a ≠ b then 1 else 0
  | .cmpLt, a, b => if a < b then 1 else 0
  | .cmpLe, a, b => if a ≤ b then 1 else 0
  | .cmpGt, a, b => if b < a then 1 else 0
  | .cmpGe, a, b => if b ≤ a then 1 else 0

/-- The machine's mutable data: values of temporaries, values of named
variables, and memory (read by `deref`). -/
structure Mach where
  tenv : Nat → Int
  venv : String → Int
  mem : Int → Int

/-- A machine configuration: a program counter into the instruction list
plus the data state. -/
structure Cfg where
  pc : Nat
  m : Mach

/-- Operand evaluation; `args` supplies formal-parameter values. -/
def evalOp (args : Nat → Int) (m : Mach) : Operand → Int
  | .cst n => n
  | .var s => m.venv s
  | .temp t => m.tenv t
  | .param i => args i

/-- Update a temporary. -/
def writeTemp (m : Mach) (t : Nat) (v : Int) : Mach :=
  { m with tenv := fun u => if u = t then v else m.tenv u }

/-- Update a named variable. -/
def writeVar (m : Mach) (s : String) (v : Int) : Mach :=
  { m with venv := fun u => if u = s then v else m.venv u }

/-- Position of the first `label l` instruction in a program. -/
def findLabel : List Instr → Nat → Option Nat
  | [], _ => none
  | i :: rest, l =>
    if i = Instr.label l then some 0 else (findLabel rest l).map (· + 1)

/-- The labels defined by a code block. -/
def labelsOf (code : List Instr) : List Nat :=
  code.filterMap fun i => match i with | .label l => some l | _ => none

/-- One step of the linear-IR machine over program `P`.  `entry` and
`label` fall through; `goto` and `condGoto` transfer to the position of
their target label; `binary`, `unary`, `move` and `funcCall` write their
destination and fall through.  A call's effects are not modelled (the
callee is external to the fragment): its result temporary is set to 0. -/
inductive Step (P : List Instr) (args : Nat → Int) : Cfg → Cfg → Prop where
  | entry {pc m} : P[pc]? = some .entry → Step P args ⟨pc, m⟩ ⟨pc + 1, m⟩
  | lbl {pc m l} : P[pc]? = some (.label l) → Step P args ⟨pc, m⟩ ⟨pc + 1, m⟩
  | goto {pc m l q} : P[pc]? = some (.goto l) → findLabel P l = some q →
      Step P args ⟨pc, m⟩ ⟨q, m⟩
  | condT {pc m c t f q} : P[pc]? = some (.condGoto c t f) →
      evalOp args m c ≠ 0 → findLabel P t = some q →
      Step P args ⟨pc, m⟩ ⟨q, m⟩
  | condF {pc m c t f q} : P[pc]? = some (.condGoto c t f) →
      evalOp args m c = 0 → findLabel P f = some q →
      Step P args ⟨pc, m⟩ ⟨q, m⟩
  | binary {pc m d op a b} : P[pc]? = some (.binary d op a b) →
      Step P args ⟨pc, m⟩
        ⟨pc + 1, writeTemp m d (applyBin op (evalOp args m a) (evalOp args m b))⟩
  | unaryNeg {pc m d a} : P[pc]? = some (.unary d .neg a) →
      Step P args ⟨pc, m⟩ ⟨pc + 1, writeTemp m d (-(evalOp args m a))⟩
  | unaryDeref {pc m d a} : P[pc]? = some (.unary d .deref a) →
      Step P args ⟨pc, m⟩ ⟨pc + 1, writeTemp m d (m.mem (evalOp args m a))⟩
  | moveTemp {pc m t src} : P[pc]? = some (.move (.temp t) src) →
      Step P args ⟨pc, m⟩ ⟨pc + 1, writeTemp m t (evalOp args m src)⟩
  | moveVar {pc m s src} : P[pc]? = some (.move (.var s) src) →
      Step P args ⟨pc, m⟩ ⟨pc + 1, writeVar m s (evalOp args m src)⟩
  | call {pc m d g as} : P[pc]? = some (.funcCall d g as) →
      Step P args ⟨pc, m⟩ ⟨pc + 1, writeTemp m d 0⟩

/-- A finite execution from one configuration to another, recording the
list of program positions whose instructions were executed along the way
(the final configuration's position is not recorded: its instruction has
not run). -/
inductive Path (P : List Instr) (args : Nat → Int) : Cfg → List Nat → Cfg → Prop where
  | refl (c : Cfg) : Path P args c [] c
  | cons {c c' c'' : Cfg} {vs : List Nat} :
      Step P args c c' → Path P args c' vs c'' → Path P args c (c.pc :: vs) c''

theorem Path.append {P args} {c c' c'' : Cfg} {vs ws : List Nat}
    (h1 : Path P args c vs c') (h2 : Path P args c' ws c'') :
    Path P args c (vs ++ ws) c'' := by
  induction h1 with
  | refl => simpa using h2
  | cons hs _ ih => exact Path.cons hs (ih h2)

theorem Path.single {P args} {c c' : Cfg} (h : Step P args c c') :
    Path P args c [c.pc] c' :=
  Path.cons h (Path.refl c')

/-- The machine is deterministic. -/
theorem Step.deterministic {P args} {c c₁ c₂ : Cfg}
    (h1 : Step P args c c₁) (h2 : Step P args c c₂) : c₁ = c₂ := by
  cases h1 <;> cases h2 <;>
    simp_all only [Option.some.injEq] <;> simp_all

theorem Path.cast_pc {P args m m' vs p q p' q'} (h : Path P args ⟨p, m⟩ vs ⟨q, m'⟩)
    (hp : p = p') (hq : q = q') : Path P args ⟨p', m⟩ vs ⟨q', m'⟩ := hp ▸ hq ▸ h

/-! ## Label lookup and list-position lemmas -/

theorem labelsOf_nil : labelsOf [] = [] := rfl

theorem labelsOf_append (xs ys : List Instr) :
    labelsOf (xs ++ ys) = labelsOf xs ++ labelsOf ys :=
  List.filterMap_append ..

theorem findLabel_eq_none {P : List Instr} {l : Nat} (h : l ∉ labelsOf P) :
    findLabel P l = none := by
  induction P with
  | nil => rfl
  | cons i rest ih =>
    rw [findLabel]
    have hrest : l ∉ labelsOf rest := by
      intro hm; exact h (by cases i <;> simp [labelsOf, List.filterMap] at hm ⊢ <;> simp_all)
    have hi : i ≠ Instr.label l := by
      intro he; subst he; exact h (by simp [labelsOf])
    simp [hi, ih hrest]

theorem findLabel_append_of_none {P : List Instr} {l : Nat}
    (h : findLabel P l = none) (Q : List Instr) :
    findLabel (P ++ Q) l = (findLabel Q l).map (· + P.length) := by
  induction P with
  | nil => simp [Option.map_id']
  | cons i rest ih =>
    rw [findLabel] at h
    by_cases hi : i = Instr.label l
    · simp [hi] at h
    · simp only [hi, if_false] at h
      have h' : findLabel rest l = none := by
        cases hr : findLabel rest l <;> simp [hr] at h ⊢
      rw [List.cons_append]
      simp only [findLabel, hi, if_false, ih h']
      cases findLabel Q l with
      | none => simp
      | some q =>
        show some (q + rest.length + 1) = some (q + (i :: rest).length)
        simp only [Option.some.injEq, List.length_cons]
        omega

theorem findLabel_label_cons (l : Nat) (P : List Instr) :
    findLabel (Instr.label l :: P) l = some 0 := by
  simp [findLabel]

/-- The position of an internal label: if `l` is not defined in `pre`,
then in `pre ++ label l :: rest` it resolves to `pre.length`. -/
theorem findLabel_middle {pre : List Instr} {l : Nat} (h : l ∉ labelsOf pre)
    (rest : List Instr) :
    findLabel (pre ++ Instr.label l :: rest) l = some pre.length := by
  rw [findLabel_append_of_none (findLabel_eq_none h), findLabel_label_cons]
  simp

theorem get_at_append (pre : List Instr) (x : Instr) (post : List Instr) :
    (pre ++ x :: post)[pre.length]? = some x := by
  induction pre with
  | nil => simp
  | cons i rest ih => simpa using ih

/-! ## Value-mode expression lowering

The value-producing expression fragment: integer literals
(`ir_leaf_node_uint`), variable references (`ir_leaf_node_var_id`),
the five arithmetic binary handlers (`ir_add`, `ir_sub`, `ir_mul`,
`ir_div`, `ir_mod`) and unary negation (`ir_neg`). -/

/-- The five arithmetic AST node kinds `AST_OP_ADD`, `AST_OP_SUB`,
`AST_OP_MUL`, `AST_OP_DIV`, `AST_OP_MOD`.  Their handlers `ir_add` …
`ir_mod` are identical up to the emitted opcode, so they are represented
by one constructor tagged with the opcode. -/
inductive ArithOp where
  | add | sub | mul | div | mod
  deriving DecidableEq, Repr

/-- The IR opcode emitted for an arithmetic AST node. -/
def ArithOp.toBin : ArithOp → BinOp
  | .add => .add
  | .sub => .sub
  | .mul => .mul
  | .div => .div
  | .mod => .mod

inductive Expr where
  | lit (n : Int)
  | evar (s : String)
  | binE (op : ArithOp) (a b : Expr)
  | negE (a : Expr)
  deriving DecidableEq, Repr

/-- Value-mode lowering of an expression, mirroring the `ir_add` …
`ir_mod`, `ir_neg`, `ir_leaf_node_uint` and `ir_leaf_node_var_id`
handlers: each binary handler visits the left operand, then the right,
appends both operand instruction lists and then a fresh
`BinaryInstruction` whose value becomes the node's value; `ir_neg`
visits its operand and appends a fresh `UnaryInstruction`.  Leaves emit
nothing: a literal's value is an interned constant, an identifier's
value is the symbol-table entry.  `k` is the fresh-allocation counter;
the result is `(emitted instructions, node value, next counter)`. -/
def lowerExpr : Expr → Nat → List Instr × Operand × Nat
  | .lit n, k => ([], .cst n, k)
  | .evar s, k => ([], .var s, k)
  | .binE op a b, k =>
    let (ia, oa, k1) := lowerExpr a k
    let (ib, ob, k2) := lowerExpr b k1
    (ia ++ ib ++ [.binary k2 op.toBin oa ob], .temp k2, k2 + 1)
  | .negE a, k =>
    let (ia, oa, k1) := lowerExpr a k
    (ia ++ [.unary k1 .neg oa], .temp k1, k1 + 1)

/-- Denotation of a value-mode expression over a variable environment. -/
def denoteExpr (venv : String → Int) : Expr → Int
  | .lit n => n
  | .evar s => venv s
  | .binE op a b => applyBin op.toBin (denoteExpr venv a) (denoteExpr venv b)
  | .negE a => -(denoteExpr venv a)

/-- An operand mentions no temporary numbered `n` or above. -/
def OpBelow : Operand → Nat → Prop
  | .temp t, n => t < n
  | _, _ => True

theorem OpBelow.mono {o : Operand} {n n' : Nat} (h : OpBelow o n) (hle : n ≤ n') :
    OpBelow o n' := by
  cases o with
  | cst n => trivial
  | var s => trivial
  | temp t => simp only [OpBelow] at *; omega
  | param i => trivial

theorem evalOp_frame {args} {m m' : Mach} {o : Operand} {n : Nat}
    (hb : OpBelow o n) (ht : ∀ t, t < n → m'.tenv t = m.tenv t)
    (hv : m'.venv = m.venv) : evalOp args m' o = evalOp args m o := by
  cases o <;> simp only [evalOp, OpBelow] at *
  · exact congrFun hv _
  · exact ht _ hb

theorem lowerExpr_le :
    ∀ {e : Expr} {k : Nat} {code o k'}, lowerExpr e k = (code, o, k') → k ≤ k' := by
  intro e
  induction e with
  | lit n => intro k code o k' h; simp only [lowerExpr, Prod.mk.injEq] at h; omega
  | evar s => intro k code o k' h; simp only [lowerExpr, Prod.mk.injEq] at h; omega
  | negE a iha =>
    intro k code o k' h
    rcases h1 : lowerExpr a k with ⟨ia, oa, k1⟩
    simp only [lowerExpr, h1, Prod.mk.injEq] at h
    have := iha h1
    omega
  | binE op a b iha ihb =>
    intro k code o k' h
    rcases h1 : lowerExpr a k with ⟨ia, oa, k1⟩
    rcases h2 : lowerExpr b k1 with ⟨ib, ob, k2⟩
    simp only [lowerExpr, h1, h2, Prod.mk.injEq] at h
    have := iha h1
    have := ihb h2
    omega

theorem lowerExpr_opBelow :
    ∀ {e : Expr} {k : Nat} {code o k'}, lowerExpr e k = (code, o, k') → OpBelow o k' := by
  intro e
  cases e <;> intro k code o k' h
  case lit =>
    simp only [lowerExpr, Prod.mk.injEq] at h
    obtain ⟨-, h2, -⟩ := h; subst h2; trivial
  case evar =>
    simp only [lowerExpr, Prod.mk.injEq] at h
    obtain ⟨-, h2, -⟩ := h; subst h2; trivial
  case negE a =>
    rcases h1 : lowerExpr a k with ⟨ia, oa, k1⟩
    simp only [lowerExpr, h1, Prod.mk.injEq] at h
    obtain ⟨-, h2, h3⟩ := h; subst h2; subst h3; simp [OpBelow]
  case binE op a b =>
    rcases h1 : lowerExpr a k with ⟨ia, oa, k1⟩
    rcases h2 : lowerExpr b k1 with ⟨ib, ob, k2⟩
    simp only [lowerExpr, h1, h2, Prod.mk.injEq] at h
    obtain ⟨-, h3, h4⟩ := h; subst h3; subst h4; simp [OpBelow]

theorem lowerExpr_labels :
    ∀ {e : Expr} {k : Nat} {code o k'}, lowerExpr e k = (code, o, k') →
      labelsOf code = [] := by
  intro e
  induction e with
  | lit n => intro k code o k' h; simp only [lowerExpr, Prod.mk.injEq] at h
             obtain ⟨h1, -, -⟩ := h; subst h1; rfl
  | evar s => intro k code o k' h; simp only [lowerExpr, Prod.mk.injEq] at h
              obtain ⟨h1, -, -⟩ := h; subst h1; rfl
  | negE a iha =>
    intro k code o k' h
    rcases h1 : lowerExpr a k with ⟨ia, oa, k1⟩
    simp only [lowerExpr, h1, Prod.mk.injEq] at h
    obtain ⟨h2, -, -⟩ := h; subst h2
    rw [labelsOf_append, iha h1]; rfl
  | binE op a b iha ihb =>
    intro k code o k' h
    rcases h1 : lowerExpr a k with ⟨ia, oa, k1⟩
    rcases h2 : lowerExpr b k1 with ⟨ib, ob, k2⟩
    simp only [lowerExpr, h1, h2, Prod.mk.injEq] at h
    obtain ⟨h3, -, -⟩ := h; subst h3
    rw [labelsOf_append, labelsOf_append, iha h1, ihb h2]; rfl

theorem writeTemp_self (m : Mach) (t : Nat) (v : Int) :
    (writeTemp m t v).tenv t = v := by simp [writeTemp]

theorem writeTemp_other {t' t : Nat} (m : Mach) (v : Int) (h : t' ≠ t) :
    (writeTemp m t v).tenv t' = m.tenv t' := by simp [writeTemp, h]

theorem writeTemp_venv (m : Mach) (t : Nat) (v : Int) :
    (writeTemp m t v).venv = m.venv := rfl

theorem writeTemp_mem (m : Mach) (t : Nat) (v : Int) :
    (writeTemp m t v).mem = m.mem := rfl

/-- Executing the code of a value-mode expression: started at the
beginning of the emitted block it runs forward through the block only,
changes no named variable, no memory cell and no temporary numbered
below the allocation counter, and leaves the node's value operand
evaluating to the expression's denotation. -/
theorem lowerExpr_exec (args : Nat → Int) :
    ∀ (e : Expr) {k : Nat} {code : List Instr} {o : Operand} {k' : Nat},
    lowerExpr e k = (code, o, k') →
    ∀ (P pre post : List Instr), P = pre ++ code ++ post →
    ∀ (m : Mach),
    ∃ (m' : Mach) (vs : List Nat),
      Path P args ⟨pre.length, m⟩ vs ⟨pre.length + code.length, m'⟩ ∧
      (∀ p ∈ vs, pre.length ≤ p ∧ p < pre.length + code.length) ∧
      m'.venv = m.venv ∧ m'.mem = m.mem ∧
      (∀ t, t < k → m'.tenv t = m.tenv t) ∧
      evalOp args m' o = denoteExpr m.venv e := by
  intro e
  induction e with
  | lit n =>
    intro k code o k' h P pre post hP m
    simp only [lowerExpr, Prod.mk.injEq] at h
    obtain ⟨h1, h2, -⟩ := h; subst h1; subst h2
    exact ⟨m, [], (Path.refl _).cast_pc rfl (by simp), by simp, rfl, rfl,
      fun _ _ => rfl, rfl⟩
  | evar s =>
    intro k code o k' h P pre post hP m
    simp only [lowerExpr, Prod.mk.injEq] at h
    obtain ⟨h1, h2, -⟩ := h; subst h1; subst h2
    exact ⟨m, [], (Path.refl _).cast_pc rfl (by simp), by simp, rfl, rfl,
      fun _ _ => rfl, rfl⟩
  | negE a iha =>
    intro k code o k' h P pre post hP m
    rcases h1 : lowerExpr a k with ⟨ia, oa, k1⟩
    simp only [lowerExpr, h1, Prod.mk.injEq] at h
    obtain ⟨hc, ho, hk'⟩ := h; subst hc; subst ho; subst hk'
    obtain ⟨m1, vs1, hp1, hr1, hv1, hm1, ht1, he1⟩ :=
      iha h1 P pre (Instr.unary k1 .neg oa :: post) (by rw [hP]; simp) m
    have hfetch : P[pre.length + ia.length]? = some (Instr.unary k1 .neg oa) := by
      have hsplit : P = (pre ++ ia) ++ Instr.unary k1 .neg oa :: post := by rw [hP]; simp
      rw [hsplit, show pre.length + ia.length = (pre ++ ia).length by simp]
      exact get_at_append ..
    have hstep : Step P args ⟨pre.length + ia.length, m1⟩
        ⟨pre.length + ia.length + 1, writeTemp m1 k1 (-(evalOp args m1 oa))⟩ :=
      Step.unaryNeg hfetch
    refine ⟨writeTemp m1 k1 (-(evalOp args m1 oa)), vs1 ++ [pre.length + ia.length],
      (hp1.append (Path.single hstep)).cast_pc rfl
        (by simp only [List.length_append, List.length_cons, List.length_nil]; omega),
      ?_, ?_, ?_, ?_, ?_⟩
    · intro p hp
      simp only [List.length_append, List.length_cons, List.length_nil]
      rcases List.mem_append.1 hp with hp | hp
      · have := hr1 p hp; omega
      · simp only [List.mem_singleton] at hp; omega
    · rw [writeTemp_venv, hv1]
    · rw [writeTemp_mem, hm1]
    · intro t htk
      have hk1 : k ≤ k1 := lowerExpr_le h1
      rw [writeTemp_other _ _ (by omega), ht1 t htk]
    · rw [evalOp, writeTemp_self, he1, denoteExpr]
  | binE op a b iha ihb =>
    intro k code o k' h P pre post hP m
    rcases h1 : lowerExpr a k with ⟨ia, oa, k1⟩
    rcases h2 : lowerExpr b k1 with ⟨ib, ob, k2⟩
    simp only [lowerExpr, h1, h2, Prod.mk.injEq] at h
    obtain ⟨hc, ho, hk'⟩ := h; subst hc; subst ho; subst hk'
    have hka : k ≤ k1 := lowerExpr_le h1
    have hk12 : k1 ≤ k2 := lowerExpr_le h2
    have hba : OpBelow oa k1 := lowerExpr_opBelow h1
    obtain ⟨m1, vs1, hp1, hr1, hv1, hm1, ht1, he1⟩ :=
      iha h1 P pre (ib ++ Instr.binary k2 op.toBin oa ob :: post) (by rw [hP]; simp) m
    obtain ⟨m2, vs2, hp2, hr2, hv2, hm2, ht2, he2⟩ :=
      ihb h2 P (pre ++ ia) (Instr.binary k2 op.toBin oa ob :: post) (by rw [hP]; simp) m1
    rw [List.length_append] at hp2 hr2
    have hfetch : P[pre.length + ia.length + ib.length]? =
        some (Instr.binary k2 op.toBin oa ob) := by
      have hsplit : P = (pre ++ ia ++ ib) ++ Instr.binary k2 op.toBin oa ob :: post := by
        rw [hP]; simp
      rw [hsplit, show pre.length + ia.length + ib.length = (pre ++ ia ++ ib).length by
        simp only [List.length_append]]
      exact get_at_append ..
    have hstep : Step P args ⟨pre.length + ia.length + ib.length, m2⟩
        ⟨pre.length + ia.length + ib.length + 1,
          writeTemp m2 k2 (applyBin op.toBin (evalOp args m2 oa) (evalOp args m2 ob))⟩ :=
      Step.binary hfetch
    have heva : evalOp args m2 oa = denoteExpr m.venv a := by
      rw [evalOp_frame hba ht2 hv2, he1]
    have hevb : evalOp args m2 ob = denoteExpr m.venv b := by
      rw [he2, hv1]
    refine ⟨writeTemp m2 k2 (applyBin op.toBin (evalOp args m2 oa) (evalOp args m2 ob)),
      vs1 ++ (vs2 ++ [pre.length + ia.length + ib.length]),
      (hp1.append (hp2.append (Path.single hstep))).cast_pc rfl
        (by simp only [List.length_append, List.length_cons, List.length_nil]; omega),
      ?_, ?_, ?_, ?_, ?_⟩
    · intro p hp
      simp only [List.length_append, List.length_cons, List.length_nil]
      rcases List.mem_append.1 hp with hp | hp
      · have := hr1 p hp; omega
      · rcases List.mem_append.1 hp with hp | hp
        · have := hr2 p hp; omega
        · simp only [List.mem_singleton] at hp; omega
    · rw [writeTemp_venv, hv2, hv1]
    · rw [writeTemp_mem, hm2, hm1]
    · intro t htk
      rw [writeTemp_other _ _ (by omega), ht2 t (by omega), ht1 t htk]
    · rw [evalOp, writeTemp_self, heva, hevb, denoteExpr]

/-! ## Label-mode (short-circuit) boolean lowering

`ir_visit_ast_node_with_2_labels` dispatches boolean-context nodes:
`AST_OP_AND`/`AST_OP_OR`/`AST_OP_NOT` to `ir_logical_and` /
`ir_logical_or` / `ir_logical_not`, the six relational node kinds to
`ir_equal` … `ir_greater_equal` (identical up to the comparison opcode,
represented here by `Cond.rel` tagged with the operator), `AST_OP_NEG`
to the label-mode `ir_neg` (which just lowers its operand with the same
labels), and any other node to the fallback that rewrites the node `e`
into `e != 0` and lowers that with `ir_not_equal`. -/

/-- The six relational AST node kinds, `AST_OP_EQ` … `AST_OP_GE`. -/
inductive RelOp where
  | eq | ne | lt | le | gt | ge
  deriving DecidableEq, Repr

/-- The comparison opcode a relational handler emits. -/
def RelOp.toBin : RelOp → BinOp
  | .eq => .cmpEq
  | .ne => .cmpNe
  | .lt => .cmpLt
  | .le => .cmpLe
  | .gt => .cmpGt
  | .ge => .cmpGe

/-- Truth of a relational operator on integers. -/
def RelOp.sem : RelOp → Int → Int → Bool
  | .eq, a, b => decide (a = b)
  | .ne, a, b => decide (a ≠ b)
  | .lt, a, b => decide (a < b)
  | .le, a, b => decide (a ≤ b)
  | .gt, a, b => decide (b < a)
  | .ge, a, b => decide (b ≤ a)

theorem applyBin_rel (op : RelOp) (a b : Int) :
    applyBin op.toBin a b = if op.sem a b then 1 else 0 := by
  cases op <;> simp [applyBin, RelOp.sem, RelOp.toBin]

/-- Boolean-context expressions: the fragment
`ir_visit_ast_node_with_2_labels` handles. -/
inductive Cond where
  | andC (a b : Cond)
  | orC (a b : Cond)
  | notC (a : Cond)
  | rel (op : RelOp) (a b : Expr)
  | atom (e : Expr)
  deriving DecidableEq, Repr

/-- The label-mode `ir_neg` lowers `AST_OP_NEG`'s operand with the same
pair of labels, so a tower of negations over a value expression is
peeled off before the `e != 0` fallback fires; `stripNegs` is that
peeling, made explicit so `lowerCond` stays structurally recursive. -/
def stripNegs : Expr → Expr
  | .negE e => stripNegs e
  | e => e

/-- Label-mode lowering with inherited labels, mirroring
`ir_visit_ast_node_with_2_labels` and the handlers it dispatches to:

* `ir_logical_and`: allocate a fresh label for the right operand, lower
  the left with `(rightOperandLabel, falseLabel)`, emit the label, lower
  the right with `(trueLabel, falseLabel)`;
* `ir_logical_or`: dually, the left gets `(trueLabel, rightOperandLabel)`;
* `ir_logical_not`: if the operand is a leaf (literal or identifier),
  emit `cmp_eq(operand, 0)` and a `CondGoto` on the inherited labels,
  otherwise lower the operand with the labels swapped;
* `ir_equal` … `ir_greater_equal`: lower both operands in value mode,
  emit the comparison and a `CondGoto`;
* the default case: rewrite the node `e` into `e != 0` and lower that
  with `ir_not_equal` (`stripNegs` accounts for `AST_OP_NEG` nodes,
  which the dispatcher sends through the label-mode `ir_neg` first).

Arguments: condition, `trueLabel`, `falseLabel`, fresh counter. -/
def lowerCond : Cond → Nat → Nat → Nat → List Instr × Nat
  | .andC a b, T, F, k =>
    let R := k
    let (ia, k1) := lowerCond a R F (k + 1)
    let (ib, k2) := lowerCond b T F k1
    (ia ++ Instr.label R :: ib, k2)
  | .orC a b, T, F, k =>
    let R := k
    let (ia, k1) := lowerCond a T R (k + 1)
    let (ib, k2) := lowerCond b T F k1
    (ia ++ Instr.label R :: ib, k2)
  | .notC (.atom (.lit n)), T, F, k =>
    ([.binary k .cmpEq (.cst n) (.cst 0), .condGoto (.temp k) T F], k + 1)
  | .notC (.atom (.evar s)), T, F, k =>
    ([.binary k .cmpEq (.var s) (.cst 0), .condGoto (.temp k) T F], k + 1)
  | .notC a, T, F, k => lowerCond a F T k
  | .rel op a b, T, F, k =>
    let (ia, oa, k1) := lowerExpr a k
    let (ib, ob, k2) := lowerExpr b k1
    (ia ++ ib ++ [.binary k2 op.toBin oa ob, .condGoto (.temp k2) T F], k2 + 1)
  | .atom e, T, F, k =>
    let (ie, oe, k1) := lowerExpr (stripNegs e) k
    (ie ++ [.binary k1 .cmpNe oe (.cst 0), .condGoto (.temp k1) T F], k1 + 1)

/-- Short-circuit denotation of a boolean-context expression. -/
def denoteCond (venv : String → Int) : Cond → Bool
  | .andC a b => denoteCond venv a && denoteCond venv b
  | .orC a b => denoteCond venv a || denoteCond venv b
  | .notC a => !denoteCond venv a
  | .rel op a b => op.sem (denoteExpr venv a) (denoteExpr venv b)
  | .atom e => decide (denoteExpr venv e ≠ 0)

theorem denoteExpr_stripNegs (venv : String → Int) (e : Expr) :
    (denoteExpr venv (stripNegs e) ≠ 0) ↔ (denoteExpr venv e ≠ 0) := by
  induction e with
  | negE a iha =>
    rw [stripNegs]
    rw [iha]
    simp [denoteExpr]
  | _ => rfl

theorem lowerCond_le :
    ∀ {c : Cond} {T F k : Nat} {code : List Instr} {k' : Nat},
      lowerCond c T F k = (code, k') → k ≤ k' := by
  intro c
  induction c with
  | andC a b iha ihb =>
    intro T F k code k' h
    rcases h1 : lowerCond a k F (k + 1) with ⟨ia, k1⟩
    rcases h2 : lowerCond b T F k1 with ⟨ib, k2⟩
    simp only [lowerCond, h1, h2, Prod.mk.injEq] at h
    have := iha h1; have := ihb h2; omega
  | orC a b iha ihb =>
    intro T F k code k' h
    rcases h1 : lowerCond a T k (k + 1) with ⟨ia, k1⟩
    rcases h2 : lowerCond b T F k1 with ⟨ib, k2⟩
    simp only [lowerCond, h1, h2, Prod.mk.injEq] at h
    have := iha h1; have := ihb h2; omega
  | notC a iha =>
    intro T F k code k' h
    cases a with
    | atom e =>
      cases e with
      | lit n => simp only [lowerCond, Prod.mk.injEq] at h; omega
      | evar s => simp only [lowerCond, Prod.mk.injEq] at h; omega
      | binE op x y => exact iha h
      | negE x => exact iha h
    | andC x y => exact iha h
    | orC x y => exact iha h
    | notC x => exact iha h
    | rel op x y => exact iha h
  | rel op a b =>
    intro T F k code k' h
    rcases h1 : lowerExpr a k with ⟨ia, oa, k1⟩
    rcases h2 : lowerExpr b k1 with ⟨ib, ob, k2⟩
    simp only [lowerCond, h1, h2, Prod.mk.injEq] at h
    have := lowerExpr_le h1; have := lowerExpr_le h2; omega
  | atom e =>
    intro T F k code k' h
    rcases h1 : lowerExpr (stripNegs e) k with ⟨ie, oe, k1⟩
    simp only [lowerCond, h1, Prod.mk.injEq] at h
    have := lowerExpr_le h1; omega

theorem lowerCond_labels :
    ∀ {c : Cond} {T F k : Nat} {code : List Instr} {k' : Nat},
      lowerCond c T F k = (code, k') →
      ∀ l ∈ labelsOf code, k ≤ l ∧ l < k' := by
  intro c
  induction c with
  | andC a b iha ihb =>
    intro T F k code k' h
    rcases h1 : lowerCond a k F (k + 1) with ⟨ia, k1⟩
    rcases h2 : lowerCond b T F k1 with ⟨ib, k2⟩
    simp only [lowerCond, h1, h2, Prod.mk.injEq] at h
    obtain ⟨hc, hk'⟩ := h; subst hc; subst hk'
    have ha1 := lowerCond_le h1
    have ha2 := lowerCond_le h2
    intro l hl
    rw [show Instr.label k :: ib = [Instr.label k] ++ ib from rfl, ← List.append_assoc,
      labelsOf_append, labelsOf_append] at hl
    rcases List.mem_append.1 hl with hl | hl
    · rcases List.mem_append.1 hl with hl | hl
      · have := iha h1 l hl; omega
      · simp only [labelsOf, List.filterMap, List.mem_singleton] at hl
        omega
    · have := ihb h2 l hl; omega
  | orC a b iha ihb =>
    intro T F k code k' h
    rcases h1 : lowerCond a T k (k + 1) with ⟨ia, k1⟩
    rcases h2 : lowerCond b T F k1 with ⟨ib, k2⟩
    simp only [lowerCond, h1, h2, Prod.mk.injEq] at h
    obtain ⟨hc, hk'⟩ := h; subst hc; subst hk'
    have ha1 := lowerCond_le h1
    have ha2 := lowerCond_le h2
    intro l hl
    rw [show Instr.label k :: ib = [Instr.label k] ++ ib from rfl, ← List.append_assoc,
      labelsOf_append, labelsOf_append] at hl
    rcases List.mem_append.1 hl with hl | hl
    · rcases List.mem_append.1 hl with hl | hl
      · have := iha h1 l hl; omega
      · simp only [labelsOf, List.filterMap, List.mem_singleton] at hl
        omega
    · have := ihb h2 l hl; omega
  | notC a iha =>
    intro T F k code k' h
    cases a with
    | atom e =>
      cases e with
      | lit n =>
        simp only [lowerCond, Prod.mk.injEq] at h
        obtain ⟨hc, -⟩ := h; subst hc
        intro l hl; simp [labelsOf, List.filterMap] at hl
      | evar s =>
        simp only [lowerCond, Prod.mk.injEq] at h
        obtain ⟨hc, -⟩ := h; subst hc
        intro l hl; simp [labelsOf, List.filterMap] at hl
      | binE op x y => exact iha h
      | negE x => exact iha h
    | andC x y => exact iha h
    | orC x y => exact iha h
    | notC x => exact iha h
    | rel op x y => exact iha h
  | rel op a b =>
    intro T F k code k' h
    rcases h1 : lowerExpr a k with ⟨ia, oa, k1⟩
    rcases h2 : lowerExpr b k1 with ⟨ib, ob, k2⟩
    simp only [lowerCond, h1, h2, Prod.mk.injEq] at h
    obtain ⟨hc, -⟩ := h; subst hc
    intro l hl
    rw [labelsOf_append, labelsOf_append, lowerExpr_labels h1, lowerExpr_labels h2] at hl
    simp [labelsOf, List.filterMap] at hl
  | atom e =>
    intro T F k code k' h
    rcases h1 : lowerExpr (stripNegs e) k with ⟨ie, oe, k1⟩
    simp only [lowerCond, h1, Prod.mk.injEq] at h
    obtain ⟨hc, -⟩ := h; subst hc
    intro l hl
    rw [labelsOf_append, lowerExpr_labels h1] at hl
    simp [labelsOf, List.filterMap] at hl

set_option maxHeartbeats 1000000 in
/-- Correctness of the short-circuit translation: the code emitted for a
boolean-context expression `c` with inherited labels `(T, F)` placed
anywhere inside a program, started at its first instruction, executes
positions of its own block only and ends up at the position of label `T`
when `c` denotes true, of label `F` when `c` denotes false, touching no
named variable, no memory and no temporary below the allocation
counter.  The labels `T`, `F` must be older than the counter and the
rest of the program must not define labels in the block's fresh
range. -/
theorem lowerCond_exec (args : Nat → Int) :
    ∀ (c : Cond) {T F k : Nat} {code : List Instr} {k' : Nat},
    lowerCond c T F k = (code, k') →
    T < k → F < k →
    ∀ (P pre post : List Instr), P = pre ++ code ++ post →
    (∀ l ∈ labelsOf pre, l < k ∨ k' ≤ l) →
    (∀ l ∈ labelsOf post, l < k ∨ k' ≤ l) →
    ∀ {pT pF : Nat}, findLabel P T = some pT → findLabel P F = some pF →
    ∀ (m : Mach),
    ∃ (m' : Mach) (vs : List Nat),
      Path P args ⟨pre.length, m⟩ vs ⟨if denoteCond m.venv c then pT else pF, m'⟩ ∧
      (∀ p ∈ vs, pre.length ≤ p ∧ p < pre.length + code.length) ∧
      m'.venv = m.venv ∧ m'.mem = m.mem ∧
      (∀ t, t < k → m'.tenv t = m.tenv t) := by
  intro c
  induction c with
  | andC a b iha ihb =>
    intro T F k code k' h hT hF P pre post hP hpre hpost pT pF hfT hfF m
    rcases h1 : lowerCond a k F (k + 1) with ⟨ia, k1⟩
    rcases h2 : lowerCond b T F k1 with ⟨ib, k2⟩
    simp only [lowerCond, h1, h2, Prod.mk.injEq] at h
    obtain ⟨hc, hk'⟩ := h; subst hc; subst hk'
    have hle1 := lowerCond_le h1
    have hle2 := lowerCond_le h2
    have hlab1 := lowerCond_labels h1
    have hlab2 := lowerCond_labels h2
    have hnoR : (k : Nat) ∉ labelsOf (pre ++ ia) := by
      rw [labelsOf_append]
      intro hmem
      rcases List.mem_append.1 hmem with hm | hm
      · rcases hpre k hm with h' | h' <;> omega
      · have := hlab1 k hm; omega
    have hfR : findLabel P k = some (pre ++ ia).length := by
      rw [show P = (pre ++ ia) ++ Instr.label k :: (ib ++ post) from by rw [hP]; simp]
      exact findLabel_middle hnoR _
    obtain ⟨m1, vs1, hp1, hr1, hv1, hm1, ht1⟩ :=
      iha h1 (by omega) (by omega) P pre (Instr.label k :: ib ++ post)
        (by rw [hP]; simp)
        (fun l hl => by rcases hpre l hl with h' | h' <;> omega)
        (by
          intro l hl
          rw [show Instr.label k :: ib ++ post = [Instr.label k] ++ (ib ++ post) from rfl,
            labelsOf_append, labelsOf_append] at hl
          rcases List.mem_append.1 hl with hl | hl
          · simp [labelsOf, List.filterMap] at hl; omega
          · rcases List.mem_append.1 hl with hl | hl
            · have := hlab2 l hl; omega
            · rcases hpost l hl with h' | h' <;> omega)
        hfR hfF m
    cases hd : denoteCond m.venv a with
    | false =>
      rw [hd] at hp1
      refine ⟨m1, vs1, hp1.cast_pc rfl (by simp [denoteCond, hd]), ?_, hv1, hm1,
        fun t ht => ht1 t (by omega)⟩
      intro p hp
      have := hr1 p hp
      simp only [List.length_append, List.length_cons] at this ⊢
      omega
    | true =>
      rw [hd] at hp1
      simp only [if_true] at hp1
      have hfetchR : P[(pre ++ ia).length]? = some (Instr.label k) := by
        rw [show P = (pre ++ ia) ++ Instr.label k :: (ib ++ post) from by rw [hP]; simp]
        exact get_at_append ..
      have hstepR : Step P args ⟨(pre ++ ia).length, m1⟩ ⟨(pre ++ ia).length + 1, m1⟩ :=
        Step.lbl hfetchR
      obtain ⟨m2, vs2, hp2, hr2, hv2, hm2, ht2⟩ :=
        ihb h2 (by omega) (by omega) P (pre ++ ia ++ [Instr.label k]) post
          (by rw [hP]; simp)
          (by
            intro l hl
            rw [labelsOf_append, labelsOf_append] at hl
            rcases List.mem_append.1 hl with hl | hl
            · rcases List.mem_append.1 hl with hl | hl
              · rcases hpre l hl with h' | h' <;> omega
              · have := hlab1 l hl; omega
            · simp [labelsOf, List.filterMap] at hl; omega)
          (fun l hl => by rcases hpost l hl with h' | h' <;> omega)
          hfT hfF m1
      rw [show (pre ++ ia ++ [Instr.label k]).length = (pre ++ ia).length + 1 by
        simp only [List.length_append, List.length_cons, List.length_nil, Nat.add_assoc]]
        at hp2 hr2
      rw [hv1] at hp2
      refine ⟨m2, vs1 ++ ((pre ++ ia).length :: vs2),
        (hp1.append (Path.cons hstepR hp2)).cast_pc rfl (by simp [denoteCond, hd]),
        ?_, hv2.trans hv1, hm2.trans hm1, fun t ht => (ht2 t (by omega)).trans (ht1 t (by omega))⟩
      intro p hp
      simp only [List.length_append, List.length_cons, List.length_nil] at *
      rcases List.mem_append.1 hp with hp | hp
      · have := hr1 p hp; omega
      · rcases List.mem_cons.1 hp with hp | hp
        · omega
        · have := hr2 p hp; omega
  | orC a b iha ihb =>
    intro T F k code k' h hT hF P pre post hP hpre hpost pT pF hfT hfF m
    rcases h1 : lowerCond a T k (k + 1) with ⟨ia, k1⟩
    rcases h2 : lowerCond b T F k1 with ⟨ib, k2⟩
    simp only [lowerCond, h1, h2, Prod.mk.injEq] at h
    obtain ⟨hc, hk'⟩ := h; subst hc; subst hk'
    have hle1 := lowerCond_le h1
    have hle2 := lowerCond_le h2
    have hlab1 := lowerCond_labels h1
    have hlab2 := lowerCond_labels h2
    have hnoR : (k : Nat) ∉ labelsOf (pre ++ ia) := by
      rw [labelsOf_append]
      intro hmem
      rcases List.mem_append.1 hmem with hm | hm
      · rcases hpre k hm with h' | h' <;> omega
      · have := hlab1 k hm; omega
    have hfR : findLabel P k = some (pre ++ ia).length := by
      rw [show P = (pre ++ ia) ++ Instr.label k :: (ib ++ post) from by rw [hP]; simp]
      exact findLabel_middle hnoR _
    obtain ⟨m1, vs1, hp1, hr1, hv1, hm1, ht1⟩ :=
      iha h1 (by omega) (by omega) P pre (Instr.label k :: ib ++ post)
        (by rw [hP]; simp)
        (fun l hl => by rcases hpre l hl with h' | h' <;> omega)
        (by
          intro l hl
          rw [show Instr.label k :: ib ++ post = [Instr.label k] ++ (ib ++ post) from rfl,
            labelsOf_append, labelsOf_append] at hl
          rcases List.mem_append.1 hl with hl | hl
          · simp [labelsOf, List.filterMap] at hl; omega
          · rcases List.mem_append.1 hl with hl | hl
            · have := hlab2 l hl; omega
            · rcases hpost l hl with h' | h' <;> omega)
        hfT hfR m
    cases hd : denoteCond m.venv a with
    | true =>
      rw [hd] at hp1
      simp only [if_true] at hp1
      refine ⟨m1, vs1, hp1.cast_pc rfl (by simp [denoteCond, hd]), ?_, hv1, hm1,
        fun t ht => ht1 t (by omega)⟩
      intro p hp
      have := hr1 p hp
      simp only [List.length_append, List.length_cons] at this ⊢
      omega
    | false =>
      rw [hd] at hp1
      simp only [Bool.false_eq_true, if_false] at hp1
      have hfetchR : P[(pre ++ ia).length]? = some (Instr.label k) := by
        rw [show P = (pre ++ ia) ++ Instr.label k :: (ib ++ post) from by rw [hP]; simp]
        exact get_at_append ..
      have hstepR : Step P args ⟨(pre ++ ia).length, m1⟩ ⟨(pre ++ ia).length + 1, m1⟩ :=
        Step.lbl hfetchR
      obtain ⟨m2, vs2, hp2, hr2, hv2, hm2, ht2⟩ :=
        ihb h2 (by omega) (by omega) P (pre ++ ia ++ [Instr.label k]) post
          (by rw [hP]; simp)
          (by
            intro l hl
            rw [labelsOf_append, labelsOf_append] at hl
            rcases List.mem_append.1 hl with hl | hl
            · rcases List.mem_append.1 hl with hl | hl
              · rcases hpre l hl with h' | h' <;> omega
              · have := hlab1 l hl; omega
            · simp [labelsOf, List.filterMap] at hl; omega)
          (fun l hl => by rcases hpost l hl with h' | h' <;> omega)
          hfT hfF m1
      rw [show (pre ++ ia ++ [Instr.label k]).length = (pre ++ ia).length + 1 by
        simp only [List.length_append, List.length_cons, List.length_nil, Nat.add_assoc]]
        at hp2 hr2
      rw [hv1] at hp2
      refine ⟨m2, vs1 ++ ((pre ++ ia).length :: vs2),
        (hp1.append (Path.cons hstepR hp2)).cast_pc rfl (by simp [denoteCond, hd]),
        ?_, hv2.trans hv1, hm2.trans hm1, fun t ht => (ht2 t (by omega)).trans (ht1 t (by omega))⟩
      intro p hp
      simp only [List.length_append, List.length_cons, List.length_nil] at *
      rcases List.mem_append.1 hp with hp | hp
      · have := hr1 p hp; omega
      · rcases List.mem_cons.1 hp with hp | hp
        · omega
        · have := hr2 p hp; omega
  | notC a iha =>
    intro T F k code k' h hT hF P pre post hP hpre hpost pT pF hfT hfF m
    have generic :
        lowerCond a F T k = (code, k') →
        ∃ (m' : Mach) (vs : List Nat),
          Path P args ⟨pre.length, m⟩ vs
            ⟨if denoteCond m.venv (.notC a) then pT else pF, m'⟩ ∧
          (∀ p ∈ vs, pre.length ≤ p ∧ p < pre.length + code.length) ∧
          m'.venv = m.venv ∧ m'.mem = m.mem ∧
          (∀ t, t < k → m'.tenv t = m.tenv t) := by
      intro h'
      obtain ⟨m1, vs1, hp1, hr1, hv1, hm1, ht1⟩ :=
        iha h' hF hT P pre post hP hpre hpost hfF hfT m
      exact ⟨m1, vs1, hp1.cast_pc rfl
        (by cases hd : denoteCond m.venv a <;> simp [denoteCond, hd]),
        hr1, hv1, hm1, ht1⟩
    have leaf :
        ∀ (o0 : Operand),
        code = [.binary k .cmpEq o0 (.cst 0), .condGoto (.temp k) T F] →
        ∃ (m' : Mach) (vs : List Nat),
          Path P args ⟨pre.length, m⟩ vs
            ⟨if evalOp args m o0 = 0 then pT else pF, m'⟩ ∧
          (∀ p ∈ vs, pre.length ≤ p ∧ p < pre.length + code.length) ∧
          m'.venv = m.venv ∧ m'.mem = m.mem ∧
          (∀ t, t < k → m'.tenv t = m.tenv t) := by
      intro o0 hc
      subst hc
      have hfetch1 : P[pre.length]? = some (Instr.binary k .cmpEq o0 (.cst 0)) := by
        rw [show P = pre ++ Instr.binary k .cmpEq o0 (.cst 0) ::
          (Instr.condGoto (.temp k) T F :: post) from by rw [hP]; simp]
        exact get_at_append ..
      have hstep1 : Step P args ⟨pre.length, m⟩
          ⟨pre.length + 1,
            writeTemp m k (applyBin .cmpEq (evalOp args m o0) (evalOp args m (.cst 0)))⟩ :=
        Step.binary hfetch1
      have hfetch2 : P[pre.length + 1]? = some (Instr.condGoto (.temp k) T F) := by
        rw [show P = (pre ++ [Instr.binary k .cmpEq o0 (.cst 0)]) ++
          Instr.condGoto (.temp k) T F :: post from by rw [hP]; simp,
          show pre.length + 1 = (pre ++ [Instr.binary k .cmpEq o0 (.cst 0)]).length by simp]
        exact get_at_append ..
      set m1 := writeTemp m k (applyBin .cmpEq (evalOp args m o0) (evalOp args m (.cst 0)))
        with hm1def
      have hcondval : evalOp args m1 (.temp k) =
          if evalOp args m o0 = 0 then 1 else 0 := by
        rw [evalOp, hm1def, writeTemp_self]
        simp [applyBin, evalOp]
      cases hz : decide (evalOp args m o0 = 0) with
      | true =>
        have hz' : evalOp args m o0 = 0 := of_decide_eq_true hz
        have hstep2 : Step P args ⟨pre.length + 1, m1⟩ ⟨pT, m1⟩ :=
          Step.condT hfetch2 (by rw [hcondval, if_pos hz']; omega) hfT
        refine ⟨m1, [pre.length, pre.length + 1],
          ((Path.single hstep1).append (Path.single hstep2)).cast_pc rfl (by rw [if_pos hz']),
          ?_, rfl, rfl, fun t ht => writeTemp_other _ _ (by omega)⟩
        intro p hp
        simp only [List.mem_cons, List.mem_singleton, List.length_cons] at hp ⊢
        rcases hp with hp | hp | hp <;> simp_all
      | false =>
        have hz' : ¬(evalOp args m o0 = 0) := of_decide_eq_false hz
        have hstep2 : Step P args ⟨pre.length + 1, m1⟩ ⟨pF, m1⟩ :=
          Step.condF hfetch2 (by rw [hcondval, if_neg hz']) hfF
        refine ⟨m1, [pre.length, pre.length + 1],
          ((Path.single hstep1).append (Path.single hstep2)).cast_pc rfl (by rw [if_neg hz']),
          ?_, rfl, rfl, fun t ht => writeTemp_other _ _ (by omega)⟩
        intro p hp
        simp only [List.mem_cons, List.mem_singleton, List.length_cons] at hp ⊢
        rcases hp with hp | hp | hp <;> simp_all
    cases a with
    | atom e =>
      cases e with
      | lit n =>
        simp only [lowerCond, Prod.mk.injEq] at h
        obtain ⟨hc, -⟩ := h
        obtain ⟨m', vs, hp, hr, hv, hm', ht⟩ := leaf (.cst n) hc.symm
        exact ⟨m', vs, hp.cast_pc rfl (by simp [denoteCond, evalOp, denoteExpr]), hr, hv, hm', ht⟩
      | evar s =>
        simp only [lowerCond, Prod.mk.injEq] at h
        obtain ⟨hc, -⟩ := h
        obtain ⟨m', vs, hp, hr, hv, hm', ht⟩ := leaf (.var s) hc.symm
        exact ⟨m', vs, hp.cast_pc rfl (by simp [denoteCond, evalOp, denoteExpr]), hr, hv, hm', ht⟩
      | binE op x y => exact generic h
      | negE x => exact generic h
    | andC x y => exact generic h
    | orC x y => exact generic h
    | notC x => exact generic h
    | rel op x y => exact generic h
  | rel op a b =>
    intro T F k code k' h hT hF P pre post hP hpre hpost pT pF hfT hfF m
    rcases h1 : lowerExpr a k with ⟨ia, oa, k1⟩
    rcases h2 : lowerExpr b k1 with ⟨ib, ob, k2⟩
    simp only [lowerCond, h1, h2, Prod.mk.injEq] at h
    obtain ⟨hc, hk'⟩ := h; subst hc; subst hk'
    have hka : k ≤ k1 := lowerExpr_le h1
    have hk12 : k1 ≤ k2 := lowerExpr_le h2
    have hba : OpBelow oa k1 := lowerExpr_opBelow h1
    obtain ⟨m1, vs1, hp1, hr1, hv1, hm1, ht1, he1⟩ :=
      lowerExpr_exec args a h1 P pre
        (ib ++ Instr.binary k2 op.toBin oa ob :: Instr.condGoto (.temp k2) T F :: post)
        (by rw [hP]; simp) m
    obtain ⟨m2, vs2, hp2, hr2, hv2, hm2, ht2, he2⟩ :=
      lowerExpr_exec args b h2 P (pre ++ ia)
        (Instr.binary k2 op.toBin oa ob :: Instr.condGoto (.temp k2) T F :: post)
        (by rw [hP]; simp) m1
    rw [List.length_append] at hp2 hr2
    have hfetch1 : P[pre.length + ia.length + ib.length]? =
        some (Instr.binary k2 op.toBin oa ob) := by
      rw [show P = (pre ++ ia ++ ib) ++ Instr.binary k2 op.toBin oa ob ::
        (Instr.condGoto (.temp k2) T F :: post) from by rw [hP]; simp,
        show pre.length + ia.length + ib.length = (pre ++ ia ++ ib).length by
          simp only [List.length_append]]
      exact get_at_append ..
    have hstep1 : Step P args ⟨pre.length + ia.length + ib.length, m2⟩
        ⟨pre.length + ia.length + ib.length + 1,
          writeTemp m2 k2 (applyBin op.toBin (evalOp args m2 oa) (evalOp args m2 ob))⟩ :=
      Step.binary hfetch1
    have heva : evalOp args m2 oa = denoteExpr m.venv a := by
      rw [evalOp_frame hba ht2 hv2, he1]
    have hevb : evalOp args m2 ob = denoteExpr m.venv b := by
      rw [he2, hv1]
    set m3 := writeTemp m2 k2 (applyBin op.toBin (evalOp args m2 oa) (evalOp args m2 ob))
      with hm3def
    have hfetch2 : P[pre.length + ia.length + ib.length + 1]? =
        some (Instr.condGoto (.temp k2) T F) := by
      rw [show P = (pre ++ ia ++ ib ++ [Instr.binary k2 op.toBin oa ob]) ++
        Instr.condGoto (.temp k2) T F :: post from by rw [hP]; simp,
        show pre.length + ia.length + ib.length + 1 =
          (pre ++ ia ++ ib ++ [Instr.binary k2 op.toBin oa ob]).length by
          simp only [List.length_append, List.length_cons, List.length_nil]]
      exact get_at_append ..
    have hcondval : evalOp args m3 (.temp k2) =
        if op.sem (denoteExpr m.venv a) (denoteExpr m.venv b) then 1 else 0 := by
      rw [evalOp, hm3def, writeTemp_self, heva, hevb, applyBin_rel]
    cases hsem : op.sem (denoteExpr m.venv a) (denoteExpr m.venv b) with
    | true =>
      have hstep2 : Step P args ⟨pre.length + ia.length + ib.length + 1, m3⟩ ⟨pT, m3⟩ :=
        Step.condT hfetch2 (by rw [hcondval, hsem]; simp) hfT
      refine ⟨m3, vs1 ++ (vs2 ++ [pre.length + ia.length + ib.length,
          pre.length + ia.length + ib.length + 1]),
        (hp1.append (hp2.append ((Path.single hstep1).append (Path.single hstep2)))).cast_pc
          rfl (by simp [denoteCond, hsem]),
        ?_, (writeTemp_venv ..).trans (hv2.trans hv1),
        (writeTemp_mem ..).trans (hm2.trans hm1),
        fun t ht => by
          rw [hm3def, writeTemp_other _ _ (by omega), ht2 t (by omega), ht1 t ht]⟩
      intro p hp
      simp only [List.length_append, List.length_cons, List.length_nil] at *
      rcases List.mem_append.1 hp with hp | hp
      · have := hr1 p hp; omega
      · rcases List.mem_append.1 hp with hp | hp
        · have := hr2 p hp; omega
        · rcases List.mem_cons.1 hp with hp | hp
          · omega
          · simp only [List.mem_singleton] at hp; omega
    | false =>
      have hstep2 : Step P args ⟨pre.length + ia.length + ib.length + 1, m3⟩ ⟨pF, m3⟩ :=
        Step.condF hfetch2 (by rw [hcondval, hsem]; simp) hfF
      refine ⟨m3, vs1 ++ (vs2 ++ [pre.length + ia.length + ib.length,
          pre.length + ia.length + ib.length + 1]),
        (hp1.append (hp2.append ((Path.single hstep1).append (Path.single hstep2)))).cast_pc
          rfl (by simp [denoteCond, hsem]),
        ?_, (writeTemp_venv ..).trans (hv2.trans hv1),
        (writeTemp_mem ..).trans (hm2.trans hm1),
        fun t ht => by
          rw [hm3def, writeTemp_other _ _ (by omega), ht2 t (by omega), ht1 t ht]⟩
      intro p hp
      simp only [List.length_append, List.length_cons, List.length_nil] at *
      rcases List.mem_append.1 hp with hp | hp
      · have := hr1 p hp; omega
      · rcases List.mem_append.1 hp with hp | hp
        · have := hr2 p hp; omega
        · rcases List.mem_cons.1 hp with hp | hp
          · omega
          · simp only [List.mem_singleton] at hp; omega
  | atom e =>
    intro T F k code k' h hT hF P pre post hP hpre hpost pT pF hfT hfF m
    rcases h1 : lowerExpr (stripNegs e) k with ⟨ie, oe, k1⟩
    simp only [lowerCond, h1, Prod.mk.injEq] at h
    obtain ⟨hc, hk'⟩ := h; subst hc; subst hk'
    have hka : k ≤ k1 := lowerExpr_le h1
    obtain ⟨m1, vs1, hp1, hr1, hv1, hm1, ht1, he1⟩ :=
      lowerExpr_exec args (stripNegs e) h1 P pre
        (Instr.binary k1 .cmpNe oe (.cst 0) :: Instr.condGoto (.temp k1) T F :: post)
        (by rw [hP]; simp) m
    have hfetch1 : P[pre.length + ie.length]? =
        some (Instr.binary k1 .cmpNe oe (.cst 0)) := by
      rw [show P = (pre ++ ie) ++ Instr.binary k1 .cmpNe oe (.cst 0) ::
        (Instr.condGoto (.temp k1) T F :: post) from by rw [hP]; simp,
        show pre.length + ie.length = (pre ++ ie).length by simp]
      exact get_at_append ..
    have hstep1 : Step P args ⟨pre.length + ie.length, m1⟩
        ⟨pre.length + ie.length + 1,
          writeTemp m1 k1 (applyBin .cmpNe (evalOp args m1 oe) (evalOp args m1 (.cst 0)))⟩ :=
      Step.binary hfetch1
    set m2 := writeTemp m1 k1 (applyBin .cmpNe (evalOp args m1 oe) (evalOp args m1 (.cst 0)))
      with hm2def
    have hfetch2 : P[pre.length + ie.length + 1]? =
        some (Instr.condGoto (.temp k1) T F) := by
      rw [show P = (pre ++ ie ++ [Instr.binary k1 .cmpNe oe (.cst 0)]) ++
        Instr.condGoto (.temp k1) T F :: post from by rw [hP]; simp,
        show pre.length + ie.length + 1 =
          (pre ++ ie ++ [Instr.binary k1 .cmpNe oe (.cst 0)]).length by
          simp only [List.length_append, List.length_cons, List.length_nil]]
      exact get_at_append ..
    have hcondval : evalOp args m2 (.temp k1) =
        if denoteExpr m.venv (stripNegs e) ≠ 0 then 1 else 0 := by
      rw [evalOp, hm2def, writeTemp_self, he1]
      simp [applyBin, evalOp]
    by_cases hz : denoteExpr m.venv e = 0
    · have hz' : ¬(denoteExpr m.venv (stripNegs e) ≠ 0) := by
        rw [denoteExpr_stripNegs]; omega
      have hstep2 : Step P args ⟨pre.length + ie.length + 1, m2⟩ ⟨pF, m2⟩ :=
        Step.condF hfetch2 (by rw [hcondval, if_neg hz']) hfF
      refine ⟨m2, vs1 ++ [pre.length + ie.length, pre.length + ie.length + 1],
        (hp1.append ((Path.single hstep1).append (Path.single hstep2))).cast_pc rfl
          (by simp [denoteCond, hz]),
        ?_, (writeTemp_venv ..).trans hv1, (writeTemp_mem ..).trans hm1,
        fun t ht => by rw [hm2def, writeTemp_other _ _ (by omega), ht1 t ht]⟩
      intro p hp
      simp only [List.length_append, List.length_cons, List.length_nil] at *
      rcases List.mem_append.1 hp with hp | hp
      · have := hr1 p hp; omega
      · rcases List.mem_cons.1 hp with hp | hp
        · omega
        · simp only [List.mem_singleton] at hp; omega
    · have hz' : denoteExpr m.venv (stripNegs e) ≠ 0 := by
        rw [denoteExpr_stripNegs]; exact hz
      have hstep2 : Step P args ⟨pre.length + ie.length + 1, m2⟩ ⟨pT, m2⟩ :=
        Step.condT hfetch2 (by rw [hcondval, if_pos hz']; omega) hfT
      refine ⟨m2, vs1 ++ [pre.length + ie.length, pre.length + ie.length + 1],
        (hp1.append ((Path.single hstep1).append (Path.single hstep2))).cast_pc rfl
          (by simp [denoteCond, hz]),
        ?_, (writeTemp_venv ..).trans hv1, (writeTemp_mem ..).trans hm1,
        fun t ht => by rw [hm2def, writeTemp_other _ _ (by omega), ht1 t ht]⟩
      intro p hp
      simp only [List.length_append, List.length_cons, List.length_nil] at *
      rcases List.mem_append.1 hp with hp | hp
      · have := hr1 p hp; omega
      · rcases List.mem_cons.1 hp with hp | hp
        · omega
        · simp only [List.mem_singleton] at hp; omega

/-- C1: lowering `a && b` in a boolean context with inherited labels
`(trueLabel, falseLabel)` creates a fresh label `R`, lowers `a` with
`(R, falseLabel)`, emits `R`, then lowers `b` with
`(trueLabel, falseLabel)`; lowering `a || b` creates a fresh label `R`,
lowers `a` with `(trueLabel, R)`, emits `R`, then lowers `b` with
`(trueLabel, falseLabel)`.  Consequently `b`'s instructions execute only
when `a` is non-zero (for `&&`) respectively zero (for `||`): when `a`
denotes the short-circuiting value the machine reaches the corresponding
inherited exit label having executed positions of `a`'s block only —
never a position of `b`'s code — and the machine is deterministic, so
that is the only execution; in general the combined block branches to
`trueLabel` or `falseLabel` according to the short-circuit denotation. -/
theorem and_or_lowering_short_circuits :
    (∀ (a b : Cond) (T F k : Nat) (ia ib : List Instr) (k1 k2 : Nat),
      T < k → F < k →
      lowerCond a k F (k + 1) = (ia, k1) →
      lowerCond b T F k1 = (ib, k2) →
      lowerCond (.andC a b) T F k = (ia ++ Instr.label k :: ib, k2) ∧
      (∀ (P pre post : List Instr) (args : Nat → Int) (m : Mach) (pT pF : Nat),
        P = pre ++ (ia ++ Instr.label k :: ib) ++ post →
        (∀ l ∈ labelsOf pre, l < k ∨ k2 ≤ l) →
        (∀ l ∈ labelsOf post, l < k ∨ k2 ≤ l) →
        findLabel P T = some pT → findLabel P F = some pF →
        (denoteCond m.venv a = false →
          ∃ (m' : Mach) (vs : List Nat),
            Path P args ⟨pre.length, m⟩ vs ⟨pF, m'⟩ ∧
            ∀ p ∈ vs, pre.length ≤ p ∧ p < pre.length + ia.length) ∧
        (∃ (m' : Mach) (vs : List Nat),
          Path P args ⟨pre.length, m⟩ vs
            ⟨if denoteCond m.venv (.andC a b) then pT else pF, m'⟩ ∧
          ∀ p ∈ vs, pre.length ≤ p ∧
            p < pre.length + (ia ++ Instr.label k :: ib).length))) ∧
    (∀ (a b : Cond) (T F k : Nat) (ia ib : List Instr) (k1 k2 : Nat),
      T < k → F < k →
      lowerCond a T k (k + 1) = (ia, k1) →
      lowerCond b T F k1 = (ib, k2) →
      lowerCond (.orC a b) T F k = (ia ++ Instr.label k :: ib, k2) ∧
      (∀ (P pre post : List Instr) (args : Nat → Int) (m : Mach) (pT pF : Nat),
        P = pre ++ (ia ++ Instr.label k :: ib) ++ post →
        (∀ l ∈ labelsOf pre, l < k ∨ k2 ≤ l) →
        (∀ l ∈ labelsOf post, l < k ∨ k2 ≤ l) →
        findLabel P T = some pT → findLabel P F = some pF →
        (denoteCond m.venv a = true →
          ∃ (m' : Mach) (vs : List Nat),
            Path P args ⟨pre.length, m⟩ vs ⟨pT, m'⟩ ∧
            ∀ p ∈ vs, pre.length ≤ p ∧ p < pre.length + ia.length) ∧
        (∃ (m' : Mach) (vs : List Nat),
          Path P args ⟨pre.length, m⟩ vs
            ⟨if denoteCond m.venv (.orC a b) then pT else pF, m'⟩ ∧
          ∀ p ∈ vs, pre.length ≤ p ∧
            p < pre.length + (ia ++ Instr.label k :: ib).length))) ∧
    (∀ (P : List Instr) (args : Nat → Int) (c c₁ c₂ : Cfg),
      Step P args c c₁ → Step P args c c₂ → c₁ = c₂) := by
  refine ⟨?_, ?_, fun P args c c₁ c₂ => Step.deterministic⟩
  · intro a b T F k ia ib k1 k2 hT hF h1 h2
    have hcomp : lowerCond (.andC a b) T F k = (ia ++ Instr.label k :: ib, k2) := by
      simp [lowerCond, h1, h2]
    refine ⟨hcomp, ?_⟩
    intro P pre post args m pT pF hP hpre hpost hfT hfF
    have hle1 := lowerCond_le h1
    have hle2 := lowerCond_le h2
    have hlab1 := lowerCond_labels h1
    have hlab2 := lowerCond_labels h2
    have hnoR : (k : Nat) ∉ labelsOf (pre ++ ia) := by
      rw [labelsOf_append]
      intro hmem
      rcases List.mem_append.1 hmem with hm | hm
      · rcases hpre k hm with h' | h' <;> omega
      · have := hlab1 k hm; omega
    have hfR : findLabel P k = some (pre ++ ia).length := by
      rw [show P = (pre ++ ia) ++ Instr.label k :: (ib ++ post) from by rw [hP]; simp]
      exact findLabel_middle hnoR _
    constructor
    · intro hd
      obtain ⟨m1, vs1, hp1, hr1, hv1, hm1, ht1⟩ :=
        lowerCond_exec args a h1 (by omega) (by omega) P pre (Instr.label k :: ib ++ post)
          (by rw [hP]; simp)
          (fun l hl => by rcases hpre l hl with h' | h' <;> omega)
          (by
            intro l hl
            rw [show Instr.label k :: ib ++ post = [Instr.label k] ++ (ib ++ post) from rfl,
              labelsOf_append, labelsOf_append] at hl
            rcases List.mem_append.1 hl with hl | hl
            · simp [labelsOf, List.filterMap] at hl; omega
            · rcases List.mem_append.1 hl with hl | hl
              · have := hlab2 l hl; omega
              · rcases hpost l hl with h' | h' <;> omega)
          hfR hfF m
      rw [hd] at hp1
      simp only [Bool.false_eq_true, if_false] at hp1
      exact ⟨m1, vs1, hp1, hr1⟩
    · obtain ⟨m', vs, hp, hr, -, -, -⟩ :=
        lowerCond_exec args (.andC a b) hcomp hT hF P pre post hP hpre hpost hfT hfF m
      exact ⟨m', vs, hp, hr⟩
  · intro a b T F k ia ib k1 k2 hT hF h1 h2
    have hcomp : lowerCond (.orC a b) T F k = (ia ++ Instr.label k :: ib, k2) := by
      simp [lowerCond, h1, h2]
    refine ⟨hcomp, ?_⟩
    intro P pre post args m pT pF hP hpre hpost hfT hfF
    have hle1 := lowerCond_le h1
    have hle2 := lowerCond_le h2
    have hlab1 := lowerCond_labels h1
    have hlab2 := lowerCond_labels h2
    have hnoR : (k : Nat) ∉ labelsOf (pre ++ ia) := by
      rw [labelsOf_append]
      intro hmem
      rcases List.mem_append.1 hmem with hm | hm
      · rcases hpre k hm with h' | h' <;> omega
      · have := hlab1 k hm; omega
    have hfR : findLabel P k = some (pre ++ ia).length := by
      rw [show P = (pre ++ ia) ++ Instr.label k :: (ib ++ post) from by rw [hP]; simp]
      exact findLabel_middle hnoR _
    constructor
    · intro hd
      obtain ⟨m1, vs1, hp1, hr1, hv1, hm1, ht1⟩ :=
        lowerCond_exec args a h1 (by omega) (by omega) P pre (Instr.label k :: ib ++ post)
          (by rw [hP]; simp)
          (fun l hl => by rcases hpre l hl with h' | h' <;> omega)
          (by
            intro l hl
            rw [show Instr.label k :: ib ++ post = [Instr.label k] ++ (ib ++ post) from rfl,
              labelsOf_append, labelsOf_append] at hl
            rcases List.mem_append.1 hl with hl | hl
            · simp [labelsOf, List.filterMap] at hl; omega
            · rcases List.mem_append.1 hl with hl | hl
              · have := hlab2 l hl; omega
              · rcases hpost l hl with h' | h' <;> omega)
          hfT hfR m
      rw [hd] at hp1
      simp only [if_true] at hp1
      exact ⟨m1, vs1, hp1, hr1⟩
    · obtain ⟨m', vs, hp, hr, -, -, -⟩ :=
        lowerCond_exec args (.orC a b) hcomp hT hF P pre post hP hpre hpost hfT hfF m
      exact ⟨m', vs, hp, hr⟩

/-- Witness for C1: the `&&` and `||` statements instantiated at the
concrete conditions `x && y` and `x || y` with labels `(0, 1)` and
counter `2`. -/
theorem and_or_lowering_short_circuits_witness :
    (lowerCond (.andC (.atom (.evar "x")) (.atom (.evar "y"))) 0 1 2 =
      ([Instr.binary 3 .cmpNe (.var "x") (.cst 0), Instr.condGoto (.temp 3) 2 1] ++
        Instr.label 2 ::
        [Instr.binary 4 .cmpNe (.var "y") (.cst 0), Instr.condGoto (.temp 4) 0 1], 5) ∧
      (∀ (P pre post : List Instr) (args : Nat → Int) (m : Mach) (pT pF : Nat),
        P = pre ++ ([Instr.binary 3 .cmpNe (.var "x") (.cst 0),
              Instr.condGoto (.temp 3) 2 1] ++
            Instr.label 2 ::
            [Instr.binary 4 .cmpNe (.var "y") (.cst 0),
              Instr.condGoto (.temp 4) 0 1]) ++ post →
        (∀ l ∈ labelsOf pre, l < 2 ∨ 5 ≤ l) →
        (∀ l ∈ labelsOf post, l < 2 ∨ 5 ≤ l) →
        findLabel P 0 = some pT → findLabel P 1 = some pF →
        (denoteCond m.venv (.atom (.evar "x")) = false →
          ∃ (m' : Mach) (vs : List Nat),
            Path P args ⟨pre.length, m⟩ vs ⟨pF, m'⟩ ∧
            ∀ p ∈ vs, pre.length ≤ p ∧
              p < pre.length + [Instr.binary 3 .cmpNe (.var "x") (.cst 0),
                Instr.condGoto (.temp 3) 2 1].length) ∧
        (∃ (m' : Mach) (vs : List Nat),
          Path P args ⟨pre.length, m⟩ vs
            ⟨if denoteCond m.venv (.andC (.atom (.evar "x")) (.atom (.evar "y")))
              then pT else pF, m'⟩ ∧
          ∀ p ∈ vs, pre.length ≤ p ∧
            p < pre.length + ([Instr.binary 3 .cmpNe (.var "x") (.cst 0),
                Instr.condGoto (.temp 3) 2 1] ++
              Instr.label 2 ::
              [Instr.binary 4 .cmpNe (.var "y") (.cst 0),
                Instr.condGoto (.temp 4) 0 1]).length))) ∧
    (lowerCond (.orC (.atom (.evar "x")) (.atom (.evar "y"))) 0 1 2 =
      ([Instr.binary 3 .cmpNe (.var "x") (.cst 0), Instr.condGoto (.temp 3) 0 2] ++
        Instr.label 2 ::
        [Instr.binary 4 .cmpNe (.var "y") (.cst 0), Instr.condGoto (.temp 4) 0 1], 5) ∧
      (∀ (P pre post : List Instr) (args : Nat → Int) (m : Mach) (pT pF : Nat),
        P = pre ++ ([Instr.binary 3 .cmpNe (.var "x") (.cst 0),
              Instr.condGoto (.temp 3) 0 2] ++
            Instr.label 2 ::
            [Instr.binary 4 .cmpNe (.var "y") (.cst 0),
              Instr.condGoto (.temp 4) 0 1]) ++ post →
        (∀ l ∈ labelsOf pre, l < 2 ∨ 5 ≤ l) →
        (∀ l ∈ labelsOf post, l < 2 ∨ 5 ≤ l) →
        findLabel P 0 = some pT → findLabel P 1 = some pF →
        (denoteCond m.venv (.atom (.evar "x")) = true →
          ∃ (m' : Mach) (vs : List Nat),
            Path P args ⟨pre.length, m⟩ vs ⟨pT, m'⟩ ∧
            ∀ p ∈ vs, pre.length ≤ p ∧
              p < pre.length + [Instr.binary 3 .cmpNe (.var "x") (.cst 0),
                Instr.condGoto (.temp 3) 0 2].length) ∧
        (∃ (m' : Mach) (vs : List Nat),
          Path P args ⟨pre.length, m⟩ vs
            ⟨if denoteCond m.venv (.orC (.atom (.evar "x")) (.atom (.evar "y")))
              then pT else pF, m'⟩ ∧
          ∀ p ∈ vs, pre.length ≤ p ∧
            p < pre.length + ([Instr.binary 3 .cmpNe (.var "x") (.cst 0),
                Instr.condGoto (.temp 3) 0 2] ++
              Instr.label 2 ::
              [Instr.binary 4 .cmpNe (.var "y") (.cst 0),
                Instr.condGoto (.temp 4) 0 1]).length))) :=
  ⟨and_or_lowering_short_circuits.1 (.atom (.evar "x")) (.atom (.evar "y"))
      0 1 2 _ _ 4 5 (by decide) (by decide) rfl rfl,
    and_or_lowering_short_circuits.2.1 (.atom (.evar "x")) (.atom (.evar "y"))
      0 1 2 _ _ 4 5 (by decide) (by decide) rfl rfl⟩

/-! ## Array access lowering (`ir_array_access`) -/

theorem fetch_at (pre : List Instr) (x : Instr) (post : List Instr) {P : List Instr}
    (hP : P = pre ++ x :: post) : P[pre.length]? = some x := by
  rw [hP]; exact get_at_append ..

/-- `Value::getArrayDimensionMultiplier`: the linearization factor for
one access dimension — the product of the sizes of all dimensions after
it (`for i in dimension+1 … n-1: multiplier *= dims[i]`). -/
def getArrayDimensionMultiplier (dims : List Int) (dimension : Nat) : Int :=
  (dims.drop (dimension + 1)).foldl (· * ·) 1

/-- The context role `ir_array_access` reads off its parent node:
the assignment target of an `AST_OP_ASSIGN` (yield the address), a
partially-indexed actual argument under `AST_OP_FUNC_REAL_PARAMS`
(yield the address, propagating the remaining dimensions), or any other
— value — context (emit a `deref` of the address). -/
inductive AccessRole where
  | assignTarget
  | realParamArg
  | loadValue
  deriving DecidableEq, Repr

/-- The loop of `ir_array_access` over the index expressions: each index
is lowered in value mode; its value is multiplied by the dimension's
multiplier unless that is 1, and accumulated into the running offset
(the first index starts the accumulator).  Arguments: declared
dimensions, remaining index expressions, current dimension, fresh
counter, accumulator operand.  Returns the emitted instructions, the
final accumulator and the next counter. -/
def accessLoop (dims : List Int) : List Expr → Nat → Nat → Option Operand →
    List Instr × Option Operand × Nat
  | [], _, k, total => ([], total, k)
  | idx :: rest, i, k, total =>
    let (ic, io, k1) := lowerExpr idx k
    let mult := getArrayDimensionMultiplier dims i
    let (ic2, cur, k2) :=
      if mult = 1 then (([] : List Instr), io, k1)
      else ([Instr.binary k1 .mul io (.cst mult)], Operand.temp k1, k1 + 1)
    let (ic3, total2, k3) :=
      match total with
      | none => (([] : List Instr), cur, k2)
      | some t => ([Instr.binary k2 .add t cur], Operand.temp k2, k2 + 1)
    let (icRest, totalR, k4) := accessLoop dims rest (i + 1) k3 (some total2)
    (ic ++ ic2 ++ ic3 ++ icRest, totalR, k4)

/-- `ir_array_access`: reject a node without index children; run the
index loop; multiply the linear offset by the element size 4; add the
array base to obtain the element address; then yield the address (for an
assignment target or a partially-indexed actual argument) or emit a
`deref` and yield the loaded element (value context).  `dims` is the
accessed variable's recorded dimension vector
(`arrayVar->getArrayDimensions()`, looked up via `findVarValue`). -/
def lowerArrayAccess (base : String) (dims : List Int) (idxs : List Expr)
    (role : AccessRole) (k : Nat) : Option (List Instr × Operand × Nat) :=
  if idxs.isEmpty then none
  else
    match accessLoop dims idxs 0 k none with
    | (loopCode, some total, k3) =>
      let byteOff := Instr.binary k3 .mul total (.cst 4)
      let addr := Instr.binary (k3 + 1) .add (.var base) (.temp k3)
      match role with
      | .assignTarget => some (loopCode ++ [byteOff, addr], .temp (k3 + 1), k3 + 2)
      | .realParamArg => some (loopCode ++ [byteOff, addr], .temp (k3 + 1), k3 + 2)
      | .loadValue =>
        some (loopCode ++ [byteOff, addr, .unary (k3 + 2) .deref (.temp (k3 + 1))],
          .temp (k3 + 2), k3 + 3)
    | (_, none, _) => none

/-- The row-major linear offset `Σ i_j · Π_{m>j} d_m` for the indices
from dimension `i` on. -/
def offsetSpec (venv : String → Int) (dims : List Int) : List Expr → Nat → Int
  | [], _ => 0
  | e :: rest, i =>
    denoteExpr venv e * getArrayDimensionMultiplier dims i +
      offsetSpec venv dims rest (i + 1)

theorem accessLoop_le (dims : List Int) :
    ∀ (idxs : List Expr) {i k : Nat} {total : Option Operand}
      {code : List Instr} {totalR : Option Operand} {k4 : Nat},
    accessLoop dims idxs i k total = (code, totalR, k4) → k ≤ k4 := by
  intro idxs
  induction idxs with
  | nil =>
    intro i k total code totalR k4 h
    simp only [accessLoop, Prod.mk.injEq] at h
    omega
  | cons e rest ih =>
    intro i k total code totalR k4 h
    rcases h1 : lowerExpr e k with ⟨ic, io, k1⟩
    have hk1 : k ≤ k1 := lowerExpr_le h1
    by_cases hm : getArrayDimensionMultiplier dims i = 1
    · cases total with
      | none =>
        rcases hR : accessLoop dims rest (i + 1) k1 (some io) with ⟨icRest, totalR2, k42⟩
        simp only [accessLoop, h1, hm, ite_true, hR, Prod.mk.injEq] at h
        have := ih hR
        omega
      | some t0 =>
        rcases hR : accessLoop dims rest (i + 1) (k1 + 1) (some (.temp k1))
          with ⟨icRest, totalR2, k42⟩
        simp only [accessLoop, h1, hm, ite_true, hR, Prod.mk.injEq] at h
        have := ih hR
        omega
    · cases total with
      | none =>
        rcases hR : accessLoop dims rest (i + 1) (k1 + 1) (some (.temp k1))
          with ⟨icRest, totalR2, k42⟩
        simp only [accessLoop, h1, hm, ite_false, if_neg, hR, Prod.mk.injEq] at h
        have := ih hR
        omega
      | some t0 =>
        rcases hR : accessLoop dims rest (i + 1) (k1 + 2) (some (.temp (k1 + 1)))
          with ⟨icRest, totalR2, k42⟩
        simp only [accessLoop, h1, hm, ite_false, if_neg, hR, Prod.mk.injEq] at h
        have := ih hR
        omega

/-- Value of the running accumulator: 0 before the first index. -/
def optVal (args : Nat → Int) (m : Mach) : Option Operand → Int
  | none => 0
  | some o => evalOp args m o

set_option maxHeartbeats 1000000 in
/-- Executing the index loop of `ir_array_access`: straight-line forward
execution within the block; the final accumulator holds the running
offset plus `Σ_j i_j · Π_{m>j} d_m` over the lowered indices. -/
theorem accessLoop_exec (args : Nat → Int) (dims : List Int) :
    ∀ (idxs : List Expr) (i : Nat) {k : Nat} {total : Option Operand}
      {code : List Instr} {totalR : Option Operand} {k4 : Nat},
    accessLoop dims idxs i k total = (code, totalR, k4) →
    (∀ t0, total = some t0 → OpBelow t0 k) →
    ∀ (P pre post : List Instr), P = pre ++ code ++ post →
    ∀ (m : Mach),
    ∃ (m' : Mach) (vs : List Nat),
      Path P args ⟨pre.length, m⟩ vs ⟨pre.length + code.length, m'⟩ ∧
      (∀ p ∈ vs, pre.length ≤ p ∧ p < pre.length + code.length) ∧
      m'.venv = m.venv ∧ m'.mem = m.mem ∧
      (∀ t, t < k → m'.tenv t = m.tenv t) ∧
      (∀ tR, totalR = some tR → OpBelow tR k4 ∧
        evalOp args m' tR =
          optVal args m total + offsetSpec m.venv dims idxs i) := by
  intro idxs
  induction idxs with
  | nil =>
    intro i k total code totalR k4 h hbelow P pre post hP m
    simp only [accessLoop, Prod.mk.injEq] at h
    obtain ⟨hc, ht2, hk4⟩ := h; subst hc; subst ht2; subst hk4
    refine ⟨m, [], (Path.refl _).cast_pc rfl (by simp), by simp, rfl, rfl,
      fun _ _ => rfl, ?_⟩
    intro tR htR
    refine ⟨hbelow tR htR, ?_⟩
    rw [htR]
    simp [optVal, offsetSpec]
  | cons e rest ih =>
    intro i k total code totalR k4 h hbelow P pre post hP m
    rcases h1 : lowerExpr e k with ⟨ic, io, k1⟩
    have hk1 : k ≤ k1 := lowerExpr_le h1
    have hio : OpBelow io k1 := lowerExpr_opBelow h1
    by_cases hm : getArrayDimensionMultiplier dims i = 1
    · cases total with
      | none =>
        rcases hR : accessLoop dims rest (i + 1) k1 (some io) with ⟨icRest, totalR2, k42⟩
        simp only [accessLoop, h1, hm, ite_true, hR, List.nil_append, List.append_nil,
          Prod.mk.injEq] at h
        obtain ⟨hc, hT, hk4⟩ := h; subst hc; subst hT; subst hk4
        have hkR := accessLoop_le dims rest hR
        obtain ⟨m1, vs1, hp1, hr1, hv1, hm1, ht1, he1⟩ :=
          lowerExpr_exec args e h1 P pre (icRest ++ post) (by rw [hP]; simp) m
        obtain ⟨m2, vs2, hp2, hr2, hv2, hm2, ht2, hval⟩ :=
          ih (i + 1) hR
            (by intro t0 ht0; rw [Option.some_inj] at ht0; subst ht0; exact hio)
            P (pre ++ ic) post (by rw [hP]; simp) m1
        rw [List.length_append] at hp2 hr2
        refine ⟨m2, vs1 ++ vs2,
          (hp1.append hp2).cast_pc rfl
            (by simp only [List.length_append, Nat.add_assoc]),
          ?_, hv2.trans hv1, hm2.trans hm1,
          fun t ht => (ht2 t (by omega)).trans (ht1 t ht), ?_⟩
        · intro p hp
          simp only [List.length_append] at *
          rcases List.mem_append.1 hp with hp | hp
          · have := hr1 p hp; omega
          · have := hr2 p hp; omega
        · intro tR htR
          obtain ⟨hb, hv⟩ := hval tR htR
          refine ⟨hb, ?_⟩
          rw [hv]
          simp only [optVal, he1, hv1, offsetSpec, hm]
          ring
      | some t0 =>
        rcases hR : accessLoop dims rest (i + 1) (k1 + 1) (some (.temp k1))
          with ⟨icRest, totalR2, k42⟩
        simp only [accessLoop, h1, hm, ite_true, hR, List.nil_append, List.append_nil,
          Prod.mk.injEq] at h
        obtain ⟨hc, hT, hk4⟩ := h; subst hc; subst hT; subst hk4
        have hkR := accessLoop_le dims rest hR
        have hbt0 : OpBelow t0 k := hbelow t0 rfl
        obtain ⟨m1, vs1, hp1, hr1, hv1, hm1, ht1, he1⟩ :=
          lowerExpr_exec args e h1 P pre
            (Instr.binary k1 .add t0 io :: (icRest ++ post)) (by rw [hP]; simp) m
        have hstep : Step P args ⟨pre.length + ic.length, m1⟩
            ⟨pre.length + ic.length + 1,
              writeTemp m1 k1 (applyBin .add (evalOp args m1 t0) (evalOp args m1 io))⟩ :=
          Step.binary (by
            rw [show pre.length + ic.length = (pre ++ ic).length by simp]
            exact fetch_at (pre ++ ic) (Instr.binary k1 .add t0 io) (icRest ++ post)
              (by rw [hP]; simp))
        set m2 := writeTemp m1 k1 (applyBin .add (evalOp args m1 t0) (evalOp args m1 io))
          with hm2def
        obtain ⟨m3, vs2, hp2, hr2, hv2, hm2', ht2, hval⟩ :=
          ih (i + 1) hR
            (by intro u hu; rw [Option.some_inj] at hu; subst hu; simp [OpBelow])
            P (pre ++ ic ++ [Instr.binary k1 .add t0 io]) post (by rw [hP]; simp) m2
        rw [show (pre ++ ic ++ [Instr.binary k1 .add t0 io]).length =
          pre.length + ic.length + 1 by simp [Nat.add_assoc]] at hp2 hr2
        refine ⟨m3, vs1 ++ ((pre.length + ic.length) :: vs2),
          (hp1.append (Path.cons hstep hp2)).cast_pc rfl
            (by simp only [List.length_append, List.length_cons, List.length_nil]; omega),
          ?_, hv2.trans ((writeTemp_venv ..).trans hv1),
          hm2'.trans ((writeTemp_mem ..).trans hm1), ?_, ?_⟩
        · intro p hp
          simp only [List.length_append, List.length_cons, List.length_nil] at *
          rcases List.mem_append.1 hp with hp | hp
          · have := hr1 p hp; omega
          · rcases List.mem_cons.1 hp with hp | hp
            · omega
            · have := hr2 p hp; omega
        · intro t ht
          rw [ht2 t (by omega), hm2def, writeTemp_other _ _ (by omega), ht1 t ht]
        · intro tR htR
          obtain ⟨hb, hv⟩ := hval tR htR
          refine ⟨hb, ?_⟩
          rw [hv]
          have hevt0 : evalOp args m1 t0 = evalOp args m t0 :=
            evalOp_frame hbt0 ht1 hv1
          have hopt : optVal args m2 (some (Operand.temp k1)) =
              evalOp args m t0 + denoteExpr m.venv e := by
            show evalOp args m2 (Operand.temp k1) = _
            rw [show evalOp args m2 (Operand.temp k1) = m2.tenv k1 from rfl,
              hm2def, writeTemp_self,
              show applyBin .add (evalOp args m1 t0) (evalOp args m1 io) =
                evalOp args m1 t0 + evalOp args m1 io from rfl,
              hevt0, he1]
          have hvenv2 : m2.venv = m.venv := (writeTemp_venv ..).trans hv1
          rw [hopt, hvenv2]
          simp only [optVal, offsetSpec, hm]
          ring
    · cases total with
      | none =>
        rcases hR : accessLoop dims rest (i + 1) (k1 + 1) (some (.temp k1))
          with ⟨icRest, totalR2, k42⟩
        simp only [accessLoop, h1, hm, ite_false, if_neg, hR, List.nil_append,
          List.append_nil, Prod.mk.injEq] at h
        obtain ⟨hc, hT, hk4⟩ := h; subst hc; subst hT; subst hk4
        have hkR := accessLoop_le dims rest hR
        obtain ⟨m1, vs1, hp1, hr1, hv1, hm1, ht1, he1⟩ :=
          lowerExpr_exec args e h1 P pre
            (Instr.binary k1 .mul io (.cst (getArrayDimensionMultiplier dims i)) ::
              (icRest ++ post)) (by rw [hP]; simp) m
        have hstep : Step P args ⟨pre.length + ic.length, m1⟩
            ⟨pre.length + ic.length + 1,
              writeTemp m1 k1 (applyBin .mul (evalOp args m1 io)
                (evalOp args m1 (.cst (getArrayDimensionMultiplier dims i))))⟩ :=
          Step.binary (by
            rw [show pre.length + ic.length = (pre ++ ic).length by simp]
            exact fetch_at (pre ++ ic)
              (Instr.binary k1 .mul io (.cst (getArrayDimensionMultiplier dims i)))
              (icRest ++ post) (by rw [hP]; simp))
        set m2 := writeTemp m1 k1 (applyBin .mul (evalOp args m1 io)
          (evalOp args m1 (.cst (getArrayDimensionMultiplier dims i)))) with hm2def
        obtain ⟨m3, vs2, hp2, hr2, hv2, hm2', ht2, hval⟩ :=
          ih (i + 1) hR
            (by intro u hu; rw [Option.some_inj] at hu; subst hu; simp [OpBelow])
            P (pre ++ ic ++
              [Instr.binary k1 .mul io (.cst (getArrayDimensionMultiplier dims i))])
            post (by rw [hP]; simp) m2
        rw [show (pre ++ ic ++
          [Instr.binary k1 .mul io (.cst (getArrayDimensionMultiplier dims i))]).length =
          pre.length + ic.length + 1 by simp [Nat.add_assoc]] at hp2 hr2
        refine ⟨m3, vs1 ++ ((pre.length + ic.length) :: vs2),
          (hp1.append (Path.cons hstep hp2)).cast_pc rfl
            (by simp only [List.length_append, List.length_cons, List.length_nil]; omega),
          ?_, hv2.trans ((writeTemp_venv ..).trans hv1),
          hm2'.trans ((writeTemp_mem ..).trans hm1), ?_, ?_⟩
        · intro p hp
          simp only [List.length_append, List.length_cons, List.length_nil] at *
          rcases List.mem_append.1 hp with hp | hp
          · have := hr1 p hp; omega
          · rcases List.mem_cons.1 hp with hp | hp
            · omega
            · have := hr2 p hp; omega
        · intro t ht
          rw [ht2 t (by omega), hm2def, writeTemp_other _ _ (by omega), ht1 t ht]
        · intro tR htR
          obtain ⟨hb, hv⟩ := hval tR htR
          refine ⟨hb, ?_⟩
          rw [hv]
          have hopt : optVal args m2 (some (Operand.temp k1)) =
              denoteExpr m.venv e * getArrayDimensionMultiplier dims i := by
            show evalOp args m2 (Operand.temp k1) = _
            rw [show evalOp args m2 (Operand.temp k1) = m2.tenv k1 from rfl,
              hm2def, writeTemp_self,
              show applyBin .mul (evalOp args m1 io)
                  (evalOp args m1 (.cst (getArrayDimensionMultiplier dims i))) =
                evalOp args m1 io * getArrayDimensionMultiplier dims i from rfl,
              he1]
          have hvenv2 : m2.venv = m.venv := (writeTemp_venv ..).trans hv1
          rw [hopt, hvenv2]
          simp only [optVal, offsetSpec]
          ring
      | some t0 =>
        rcases hR : accessLoop dims rest (i + 1) (k1 + 2) (some (.temp (k1 + 1)))
          with ⟨icRest, totalR2, k42⟩
        simp only [accessLoop, h1, hm, ite_false, if_neg, hR, List.nil_append,
          List.append_nil, Prod.mk.injEq] at h
        obtain ⟨hc, hT, hk4⟩ := h; subst hc; subst hT; subst hk4
        have hkR := accessLoop_le dims rest hR
        have hbt0 : OpBelow t0 k := hbelow t0 rfl
        obtain ⟨m1, vs1, hp1, hr1, hv1, hm1, ht1, he1⟩ :=
          lowerExpr_exec args e h1 P pre
            (Instr.binary k1 .mul io (.cst (getArrayDimensionMultiplier dims i)) ::
              (Instr.binary (k1 + 1) .add t0 (.temp k1) :: (icRest ++ post)))
            (by rw [hP]; simp) m
        have hstep1 : Step P args ⟨pre.length + ic.length, m1⟩
            ⟨pre.length + ic.length + 1,
              writeTemp m1 k1 (applyBin .mul (evalOp args m1 io)
                (evalOp args m1 (.cst (getArrayDimensionMultiplier dims i))))⟩ :=
          Step.binary (by
            rw [show pre.length + ic.length = (pre ++ ic).length by simp]
            exact fetch_at (pre ++ ic)
              (Instr.binary k1 .mul io (.cst (getArrayDimensionMultiplier dims i)))
              (Instr.binary (k1 + 1) .add t0 (.temp k1) :: (icRest ++ post))
              (by rw [hP]; simp))
        set m2 := writeTemp m1 k1 (applyBin .mul (evalOp args m1 io)
          (evalOp args m1 (.cst (getArrayDimensionMultiplier dims i)))) with hm2def
        have hstep2 : Step P args ⟨pre.length + ic.length + 1, m2⟩
            ⟨pre.length + ic.length + 1 + 1,
              writeTemp m2 (k1 + 1) (applyBin .add (evalOp args m2 t0)
                (evalOp args m2 (.temp k1)))⟩ :=
          Step.binary (by
            rw [show pre.length + ic.length + 1 = (pre ++ ic ++
              [Instr.binary k1 .mul io
                (.cst (getArrayDimensionMultiplier dims i))]).length by
              simp [Nat.add_assoc]]
            exact fetch_at
              (pre ++ ic ++
                [Instr.binary k1 .mul io (.cst (getArrayDimensionMultiplier dims i))])
              (Instr.binary (k1 + 1) .add t0 (.temp k1)) (icRest ++ post)
              (by rw [hP]; simp))
        set m3 := writeTemp m2 (k1 + 1) (applyBin .add (evalOp args m2 t0)
          (evalOp args m2 (.temp k1))) with hm3def
        obtain ⟨m4, vs2, hp2, hr2, hv2, hm3', ht3, hval⟩ :=
          ih (i + 1) hR
            (by intro u hu; rw [Option.some_inj] at hu; subst hu; simp [OpBelow])
            P (pre ++ ic ++
              [Instr.binary k1 .mul io (.cst (getArrayDimensionMultiplier dims i)),
                Instr.binary (k1 + 1) .add t0 (.temp k1)])
            post (by rw [hP]; simp) m3
        rw [show (pre ++ ic ++
          [Instr.binary k1 .mul io (.cst (getArrayDimensionMultiplier dims i)),
            Instr.binary (k1 + 1) .add t0 (.temp k1)]).length =
          pre.length + ic.length + 1 + 1 by simp [Nat.add_assoc]] at hp2 hr2
        refine ⟨m4, vs1 ++ ((pre.length + ic.length) ::
            (pre.length + ic.length + 1) :: vs2),
          (hp1.append (Path.cons hstep1 (Path.cons hstep2 hp2))).cast_pc rfl
            (by simp only [List.length_append, List.length_cons, List.length_nil]; omega),
          ?_, hv2.trans ((writeTemp_venv ..).trans ((writeTemp_venv ..).trans hv1)),
          hm3'.trans ((writeTemp_mem ..).trans ((writeTemp_mem ..).trans hm1)), ?_, ?_⟩
        · intro p hp
          simp only [List.length_append, List.length_cons, List.length_nil] at *
          rcases List.mem_append.1 hp with hp | hp
          · have := hr1 p hp; omega
          · rcases List.mem_cons.1 hp with hp | hp
            · omega
            · rcases List.mem_cons.1 hp with hp | hp
              · omega
              · have := hr2 p hp; omega
        · intro t ht
          rw [ht3 t (by omega), hm3def, writeTemp_other _ _ (by omega),
            hm2def, writeTemp_other _ _ (by omega), ht1 t ht]
        · intro tR htR
          obtain ⟨hb, hv⟩ := hval tR htR
          refine ⟨hb, ?_⟩
          rw [hv]
          have hframe21 : ∀ t, t < k1 → m2.tenv t = m1.tenv t := by
            intro t ht
            rw [hm2def]
            exact writeTemp_other _ _ (by omega)
          have hvenv21 : m2.venv = m1.venv := by rw [hm2def]; exact writeTemp_venv ..
          have hevt0 : evalOp args m2 t0 = evalOp args m t0 := by
            rw [evalOp_frame (hbt0.mono hk1) hframe21 hvenv21]
            exact evalOp_frame hbt0 ht1 hv1
          have hopt : optVal args m3 (some (Operand.temp (k1 + 1))) =
              evalOp args m t0 +
                denoteExpr m.venv e * getArrayDimensionMultiplier dims i := by
            show evalOp args m3 (Operand.temp (k1 + 1)) = _
            rw [show evalOp args m3 (Operand.temp (k1 + 1)) = m3.tenv (k1 + 1) from rfl,
              hm3def, writeTemp_self,
              show applyBin .add (evalOp args m2 t0) (evalOp args m2 (.temp k1)) =
                evalOp args m2 t0 + evalOp args m2 (.temp k1) from rfl,
              hevt0,
              show evalOp args m2 (Operand.temp k1) = m2.tenv k1 from rfl,
              hm2def, writeTemp_self,
              show applyBin .mul (evalOp args m1 io)
                  (evalOp args m1 (.cst (getArrayDimensionMultiplier dims i))) =
                evalOp args m1 io * getArrayDimensionMultiplier dims i from rfl,
              he1]
          have hvenv3 : m3.venv = m.venv :=
            (writeTemp_venv ..).trans ((writeTemp_venv ..).trans hv1)
          rw [hopt, hvenv3]
          simp only [optVal, offsetSpec]
          ring

set_option maxHeartbeats 1000000 in
/-- C3: for an array access with indices `i_0 … i_{k-1}` against a
variable declared with dimensions `d_0 … d_{n-1}`, the emitted
instructions compute the byte offset `4 · Σ_j i_j · Π_{m>j} d_m` (each
index times the product of all later declared dimensions, summed, then
times the element size 4, cf. `getArrayDimensionMultiplier`), and the
element address is the array base plus that byte offset; the address is
the node's value for an assignment target or an actual-argument access,
and the value context appends a `deref` of it. -/
theorem array_access_linearization :
    ∀ (base : String) (dims : List Int) (idxs : List Expr) (role : AccessRole)
      (k : Nat) (loopCode : List Instr) (total : Operand) (k3 : Nat)
      (code : List Instr) (res : Operand) (k' : Nat),
    accessLoop dims idxs 0 k none = (loopCode, some total, k3) →
    lowerArrayAccess base dims idxs role k = some (code, res, k') →
    ((role = .assignTarget ∨ role = .realParamArg) → res = .temp (k3 + 1)) ∧
    (role = .loadValue → res = .temp (k3 + 2)) ∧
    (∀ (P pre post : List Instr), P = pre ++ code ++ post →
      ∀ (args : Nat → Int) (m : Mach),
      ∃ (m' : Mach) (vs : List Nat),
        Path P args ⟨pre.length, m⟩ vs ⟨pre.length + code.length, m'⟩ ∧
        m'.tenv k3 = 4 * offsetSpec m.venv dims idxs 0 ∧
        m'.tenv (k3 + 1) = m.venv base + 4 * offsetSpec m.venv dims idxs 0) := by
  intro base dims idxs role k loopCode total k3 code res k' haccess h
  have hne : ¬idxs.isEmpty := by
    intro hemp
    rw [List.isEmpty_iff] at hemp
    subst hemp
    simp only [accessLoop, Prod.mk.injEq] at haccess
    exact Option.noConfusion haccess.2.1
  have hshape :
      (role = .assignTarget ∨ role = .realParamArg) →
        code = loopCode ++ [Instr.binary k3 .mul total (.cst 4),
          Instr.binary (k3 + 1) .add (.var base) (.temp k3)] ∧
        res = .temp (k3 + 1) ∧ k' = k3 + 2 := by
    intro hrole
    rcases hrole with hrole | hrole <;>
      · subst hrole
        rw [lowerArrayAccess, if_neg hne, haccess] at h
        simp only [Option.some_inj, Prod.mk.injEq] at h
        exact ⟨h.1.symm, h.2.1.symm, h.2.2.symm⟩
  have hshapeL : role = .loadValue →
      code = loopCode ++ [Instr.binary k3 .mul total (.cst 4),
        Instr.binary (k3 + 1) .add (.var base) (.temp k3),
        Instr.unary (k3 + 2) .deref (.temp (k3 + 1))] ∧
      res = .temp (k3 + 2) ∧ k' = k3 + 3 := by
    intro hrole
    subst hrole
    rw [lowerArrayAccess, if_neg hne, haccess] at h
    simp only [Option.some_inj, Prod.mk.injEq] at h
    exact ⟨h.1.symm, h.2.1.symm, h.2.2.symm⟩
  refine ⟨fun hr => (hshape hr).2.1, fun hr => (hshapeL hr).2.1, ?_⟩
  intro P pre post hP args m
  have hexec := accessLoop_exec args dims idxs 0 haccess (by intro t0 ht0; cases ht0)
  cases role with
  | loadValue =>
    obtain ⟨hc, -, -⟩ := hshapeL rfl
    subst hc
    obtain ⟨m1, vs1, hp1, hr1, hv1, hm1, ht1, hval⟩ :=
      hexec P pre (Instr.binary k3 .mul total (.cst 4) ::
        (Instr.binary (k3 + 1) .add (.var base) (.temp k3) ::
          (Instr.unary (k3 + 2) .deref (.temp (k3 + 1)) :: post)))
        (by rw [hP]; simp) m
    obtain ⟨hbt, hvt⟩ := hval total rfl
    have hstep1 : Step P args ⟨pre.length + loopCode.length, m1⟩
        ⟨pre.length + loopCode.length + 1,
          writeTemp m1 k3 (applyBin .mul (evalOp args m1 total)
            (evalOp args m1 (.cst 4)))⟩ :=
      Step.binary (by
        rw [show pre.length + loopCode.length = (pre ++ loopCode).length by simp]
        exact fetch_at (pre ++ loopCode) (Instr.binary k3 .mul total (.cst 4))
          (Instr.binary (k3 + 1) .add (.var base) (.temp k3) ::
            (Instr.unary (k3 + 2) .deref (.temp (k3 + 1)) :: post))
          (by rw [hP]; simp))
    set m2 := writeTemp m1 k3 (applyBin .mul (evalOp args m1 total)
      (evalOp args m1 (.cst 4))) with hm2def
    have hstep2 : Step P args ⟨pre.length + loopCode.length + 1, m2⟩
        ⟨pre.length + loopCode.length + 1 + 1,
          writeTemp m2 (k3 + 1) (applyBin .add (evalOp args m2 (.var base))
            (evalOp args m2 (.temp k3)))⟩ :=
      Step.binary (by
        rw [show pre.length + loopCode.length + 1 =
          (pre ++ loopCode ++ [Instr.binary k3 .mul total (.cst 4)]).length by
          simp [Nat.add_assoc]]
        exact fetch_at (pre ++ loopCode ++ [Instr.binary k3 .mul total (.cst 4)])
          (Instr.binary (k3 + 1) .add (.var base) (.temp k3))
          (Instr.unary (k3 + 2) .deref (.temp (k3 + 1)) :: post)
          (by rw [hP]; simp))
    set m3 := writeTemp m2 (k3 + 1) (applyBin .add (evalOp args m2 (.var base))
      (evalOp args m2 (.temp k3))) with hm3def
    have hstep3 : Step P args ⟨pre.length + loopCode.length + 1 + 1, m3⟩
        ⟨pre.length + loopCode.length + 1 + 1 + 1,
          writeTemp m3 (k3 + 2) (m3.mem (evalOp args m3 (.temp (k3 + 1))))⟩ :=
      Step.unaryDeref (by
        rw [show pre.length + loopCode.length + 1 + 1 =
          (pre ++ loopCode ++ [Instr.binary k3 .mul total (.cst 4),
            Instr.binary (k3 + 1) .add (.var base) (.temp k3)]).length by
          simp [Nat.add_assoc]]
        exact fetch_at (pre ++ loopCode ++ [Instr.binary k3 .mul total (.cst 4),
            Instr.binary (k3 + 1) .add (.var base) (.temp k3)])
          (Instr.unary (k3 + 2) .deref (.temp (k3 + 1))) post
          (by rw [hP]; simp))
    have hbyte : m2.tenv k3 = 4 * offsetSpec m.venv dims idxs 0 := by
      rw [hm2def, writeTemp_self,
        show applyBin .mul (evalOp args m1 total) (evalOp args m1 (.cst 4)) =
          evalOp args m1 total * 4 from rfl, hvt]
      simp only [optVal]
      ring
    have haddr : m3.tenv (k3 + 1) =
        m.venv base + 4 * offsetSpec m.venv dims idxs 0 := by
      rw [hm3def, writeTemp_self,
        show applyBin .add (evalOp args m2 (.var base)) (evalOp args m2 (.temp k3)) =
          m2.venv base + m2.tenv k3 from rfl,
        show m2.venv = m1.venv from by rw [hm2def]; exact writeTemp_venv ..,
        hv1, hbyte]
    refine ⟨writeTemp m3 (k3 + 2) (m3.mem (evalOp args m3 (.temp (k3 + 1)))),
      vs1 ++ [pre.length + loopCode.length, pre.length + loopCode.length + 1,
        pre.length + loopCode.length + 1 + 1],
      (hp1.append ((Path.single hstep1).append
        ((Path.single hstep2).append (Path.single hstep3)))).cast_pc rfl
        (by simp only [List.length_append, List.length_cons, List.length_nil]; omega),
      ?_, ?_⟩
    · rw [writeTemp_other _ _ (by omega), hm3def, writeTemp_other _ _ (by omega), hbyte]
    · rw [writeTemp_other _ _ (by omega), haddr]
  | assignTarget =>
    obtain ⟨hc, -, -⟩ := hshape (Or.inl rfl)
    subst hc
    obtain ⟨m1, vs1, hp1, hr1, hv1, hm1, ht1, hval⟩ :=
      hexec P pre (Instr.binary k3 .mul total (.cst 4) ::
        (Instr.binary (k3 + 1) .add (.var base) (.temp k3) :: post))
        (by rw [hP]; simp) m
    obtain ⟨hbt, hvt⟩ := hval total rfl
    have hstep1 : Step P args ⟨pre.length + loopCode.length, m1⟩
        ⟨pre.length + loopCode.length + 1,
          writeTemp m1 k3 (applyBin .mul (evalOp args m1 total)
            (evalOp args m1 (.cst 4)))⟩ :=
      Step.binary (by
        rw [show pre.length + loopCode.length = (pre ++ loopCode).length by simp]
        exact fetch_at (pre ++ loopCode) (Instr.binary k3 .mul total (.cst 4))
          (Instr.binary (k3 + 1) .add (.var base) (.temp k3) :: post)
          (by rw [hP]; simp))
    set m2 := writeTemp m1 k3 (applyBin .mul (evalOp args m1 total)
      (evalOp args m1 (.cst 4))) with hm2def
    have hstep2 : Step P args ⟨pre.length + loopCode.length + 1, m2⟩
        ⟨pre.length + loopCode.length + 1 + 1,
          writeTemp m2 (k3 + 1) (applyBin .add (evalOp args m2 (.var base))
            (evalOp args m2 (.temp k3)))⟩ :=
      Step.binary (by
        rw [show pre.length + loopCode.length + 1 =
          (pre ++ loopCode ++ [Instr.binary k3 .mul total (.cst 4)]).length by
          simp [Nat.add_assoc]]
        exact fetch_at (pre ++ loopCode ++ [Instr.binary k3 .mul total (.cst 4)])
          (Instr.binary (k3 + 1) .add (.var base) (.temp k3)) post
          (by rw [hP]; simp))
    set m3 := writeTemp m2 (k3 + 1) (applyBin .add (evalOp args m2 (.var base))
      (evalOp args m2 (.temp k3))) with hm3def
    have hbyte : m2.tenv k3 = 4 * offsetSpec m.venv dims idxs 0 := by
      rw [hm2def, writeTemp_self,
        show applyBin .mul (evalOp args m1 total) (evalOp args m1 (.cst 4)) =
          evalOp args m1 total * 4 from rfl, hvt]
      simp only [optVal]
      ring
    have haddr : m3.tenv (k3 + 1) =
        m.venv base + 4 * offsetSpec m.venv dims idxs 0 := by
      rw [hm3def, writeTemp_self,
        show applyBin .add (evalOp args m2 (.var base)) (evalOp args m2 (.temp k3)) =
          m2.venv base + m2.tenv k3 from rfl,
        show m2.venv = m1.venv from by rw [hm2def]; exact writeTemp_venv ..,
        hv1, hbyte]
    refine ⟨m3,
      vs1 ++ [pre.length + loopCode.length, pre.length + loopCode.length + 1],
      (hp1.append ((Path.single hstep1).append (Path.single hstep2))).cast_pc rfl
        (by simp only [List.length_append, List.length_cons, List.length_nil]; omega),
      ?_, haddr⟩
    rw [hm3def, writeTemp_other _ _ (by omega), hbyte]
  | realParamArg =>
    obtain ⟨hc, -, -⟩ := hshape (Or.inr rfl)
    subst hc
    obtain ⟨m1, vs1, hp1, hr1, hv1, hm1, ht1, hval⟩ :=
      hexec P pre (Instr.binary k3 .mul total (.cst 4) ::
        (Instr.binary (k3 + 1) .add (.var base) (.temp k3) :: post))
        (by rw [hP]; simp) m
    obtain ⟨hbt, hvt⟩ := hval total rfl
    have hstep1 : Step P args ⟨pre.length + loopCode.length, m1⟩
        ⟨pre.length + loopCode.length + 1,
          writeTemp m1 k3 (applyBin .mul (evalOp args m1 total)
            (evalOp args m1 (.cst 4)))⟩ :=
      Step.binary (by
        rw [show pre.length + loopCode.length = (pre ++ loopCode).length by simp]
        exact fetch_at (pre ++ loopCode) (Instr.binary k3 .mul total (.cst 4))
          (Instr.binary (k3 + 1) .add (.var base) (.temp k3) :: post)
          (by rw [hP]; simp))
    set m2 := writeTemp m1 k3 (applyBin .mul (evalOp args m1 total)
      (evalOp args m1 (.cst 4))) with hm2def
    have hstep2 : Step P args ⟨pre.length + loopCode.length + 1, m2⟩
        ⟨pre.length + loopCode.length + 1 + 1,
          writeTemp m2 (k3 + 1) (applyBin .add (evalOp args m2 (.var base))
            (evalOp args m2 (.temp k3)))⟩ :=
      Step.binary (by
        rw [show pre.length + loopCode.length + 1 =
          (pre ++ loopCode ++ [Instr.binary k3 .mul total (.cst 4)]).length by
          simp [Nat.add_assoc]]
        exact fetch_at (pre ++ loopCode ++ [Instr.binary k3 .mul total (.cst 4)])
          (Instr.binary (k3 + 1) .add (.var base) (.temp k3)) post
          (by rw [hP]; simp))
    set m3 := writeTemp m2 (k3 + 1) (applyBin .add (evalOp args m2 (.var base))
      (evalOp args m2 (.temp k3))) with hm3def
    have hbyte : m2.tenv k3 = 4 * offsetSpec m.venv dims idxs 0 := by
      rw [hm2def, writeTemp_self,
        show applyBin .mul (evalOp args m1 total) (evalOp args m1 (.cst 4)) =
          evalOp args m1 total * 4 from rfl, hvt]
      simp only [optVal]
      ring
    have haddr : m3.tenv (k3 + 1) =
        m.venv base + 4 * offsetSpec m.venv dims idxs 0 := by
      rw [hm3def, writeTemp_self,
        show applyBin .add (evalOp args m2 (.var base)) (evalOp args m2 (.temp k3)) =
          m2.venv base + m2.tenv k3 from rfl,
        show m2.venv = m1.venv from by rw [hm2def]; exact writeTemp_venv ..,
        hv1, hbyte]
    refine ⟨m3,
      vs1 ++ [pre.length + loopCode.length, pre.length + loopCode.length + 1],
      (hp1.append ((Path.single hstep1).append (Path.single hstep2))).cast_pc rfl
        (by simp only [List.length_append, List.length_cons, List.length_nil]; omega),
      ?_, haddr⟩
    rw [hm3def, writeTemp_other _ _ (by omega), hbyte]

/-- Witness for C3 at the access `a[1][2]` of an array declared
`a[2][3]` (assignment-target role, counter 0): the emitted code is the
index loop followed by the byte-offset multiply and the base-plus-offset
add, the yielded value is the address temporary, and execution computes
byte offset `4·(1·3 + 2) = 20` above the base. -/
theorem array_access_linearization_witness :
    ((AccessRole.assignTarget = AccessRole.assignTarget ∨
        AccessRole.assignTarget = AccessRole.realParamArg) →
      Operand.temp (2 + 1) = Operand.temp (2 + 1)) ∧
    (AccessRole.assignTarget = AccessRole.loadValue →
      Operand.temp (2 + 1) = Operand.temp (2 + 2)) ∧
    (∀ (P pre post : List Instr),
      P = pre ++ [Instr.binary 0 .mul (.cst 1) (.cst 3),
        Instr.binary 1 .add (.temp 0) (.cst 2),
        Instr.binary 2 .mul (.temp 1) (.cst 4),
        Instr.binary 3 .add (.var "a") (.temp 2)] ++ post →
      ∀ (args : Nat → Int) (m : Mach),
      ∃ (m' : Mach) (vs : List Nat),
        Path P args ⟨pre.length, m⟩ vs
          ⟨pre.length + [Instr.binary 0 .mul (.cst 1) (.cst 3),
            Instr.binary 1 .add (.temp 0) (.cst 2),
            Instr.binary 2 .mul (.temp 1) (.cst 4),
            Instr.binary 3 .add (.var "a") (.temp 2)].length, m'⟩ ∧
        m'.tenv 2 = 4 * offsetSpec m.venv [2, 3] [.lit 1, .lit 2] 0 ∧
        m'.tenv (2 + 1) =
          m.venv "a" + 4 * offsetSpec m.venv [2, 3] [.lit 1, .lit 2] 0) :=
  array_access_linearization "a" [2, 3] [.lit 1, .lit 2] .assignTarget 0
    [Instr.binary 0 .mul (.cst 1) (.cst 3), Instr.binary 1 .add (.temp 0) (.cst 2)]
    (.temp 1) 2
    [Instr.binary 0 .mul (.cst 1) (.cst 3), Instr.binary 1 .add (.temp 0) (.cst 2),
      Instr.binary 2 .mul (.temp 1) (.cst 4), Instr.binary 3 .add (.var "a") (.temp 2)]
    (.temp 3) 4 rfl rfl

/-! ## Statement lowering (`ir_assign`, `ir_return`, `ir_if_statement`,
`ir_while_statement`, `ir_break_statement`, `ir_continue_statement`,
`ir_block`, `ir_function_call`, `ir_function_define`) -/

/-- A function known to the module: its name and its formal-parameter
count (`Function::getParams().size()`). -/
structure FuncSig where
  name : String
  arity : Nat
  deriving DecidableEq, Repr

/-- The per-function lowering context: the module's function table, the
function's exit label (`Function::getExitLabel`) and its return-value
slot (`Function::getReturnValue`, absent for `void`). -/
structure FuncCtx where
  funcs : List FuncSig
  exitLabel : Nat
  retSlot : Option Nat
  deriving DecidableEq, Repr

/-- Mutable lowering state: the fresh-allocation counter and the
function's break/continue label stacks
(`Function::pushBreakLabel` … `popContinueLabel`). -/
structure GenSt where
  counter : Nat
  breakLabels : List Nat
  continueLabels : List Nat
  deriving DecidableEq, Repr

/-- Assignment targets: a plain identifier (resolved through the symbol
table, emitting no instructions — `ir_leaf_node_var_id`) or an array
access in assignment-target role.  `dims` is the dimension vector
recorded on the array variable. -/
inductive LVal where
  | lvar (s : String)
  | larr (base : String) (dims : List Int) (idxs : List Expr)
  deriving DecidableEq, Repr

/-- The statement fragment of the AST. -/
inductive Stmt where
  | assign (lhs : LVal) (rhs : Expr)
  | retS (e : Option Expr)
  | ifS (c : Cond) (thenS : Stmt)
  | ifElseS (c : Cond) (thenS elseS : Stmt)
  | whileS (c : Cond) (body : Stmt)
  | breakS
  | continueS
  | block (stmts : List Stmt)
  | callS (callee : String) (lineno : Int) (args : List Expr)

/-- The diagnostic `ir_function_call` logs for an actual/formal count
mismatch; it carries the call site's line number. -/
def arityErrorMsg (lineno : Int) (callee : String) (expected provided : Nat) : String :=
  "line " ++ toString lineno ++ ": call to " ++ callee ++ " expects " ++
    toString expected ++ " arguments, " ++ toString provided ++ " provided"

/-- The argument walk of `ir_function_call`: each actual is lowered left
to right, its instructions appended and its value collected. -/
def lowerArgs : List Expr → Nat → List Instr × List Operand × Nat
  | [], k => ([], [], k)
  | e :: rest, k =>
    let (c, o, k1) := lowerExpr e k
    let (cs, os, k2) := lowerArgs rest k1
    (c ++ cs, o :: os, k2)

/-- `ir_function_call`: look the callee up in the module (undefined is a
semantic error), lower all actuals, then check the actual count against
the callee's formal count — a mismatch is reported with the line number
and fails the handler, so no `FuncCall` instruction is created; otherwise
append the `FuncCall`, whose value is the node's value. -/
def lowerCall (funcs : List FuncSig) (callee : String) (lineno : Int)
    (argExprs : List Expr) (k : Nat) : Except String (List Instr × Operand × Nat) :=
  match funcs.find? (fun g => g.name == callee) with
  | none => .error ("function " ++ callee ++ " is not defined or declared")
  | some sig =>
    let (argCode, argOps, k1) := lowerArgs argExprs k
    if argOps.length ≠ sig.arity then
      .error (arityErrorMsg lineno callee sig.arity argOps.length)
    else
      .ok (argCode ++ [.funcCall k1 callee argOps], .temp k1, k1 + 1)

/-- Lowering of an assignment's left-hand side: a name resolves through
the symbol table with no instructions; an array access is lowered in
assignment-target role and yields the element address. -/
def lowerLVal : LVal → Nat → Except String (List Instr × Operand × Nat)
  | .lvar s, k => .ok ([], .var s, k)
  | .larr base dims idxs, k =>
    match lowerArrayAccess base dims idxs .assignTarget k with
    | none => .error "malformed array access"
    | some r => .ok r

mutual

/-- Statement lowering.  Each case mirrors its handler:

* `ir_assign` visits the left-hand side first, then the right-hand side,
  but appends the emitted instructions right-hand side first, then the
  left-hand side's, then the `Move` into the target;
* `ir_return` lowers the expression (if any), then moves it into the
  return slot and jumps to the exit label; a missing or superfluous
  expression is logged but lowering proceeds with just the jump
  (and the expression's side effects, if present);
* `ir_if_statement` allocates `thenLabel`, an `elseLabel` only when an
  else branch exists, and `endIfLabel`; lowers the condition with
  `(thenLabel, elseLabel-or-endIfLabel)`; then emits then-label, then
  branch, optional `Goto(end)` + else-label + else branch, end label;
* `ir_while_statement` allocates entry/body/exit labels, pushes the exit
  label on the break stack and the entry label on the continue stack,
  emits entry label, condition lowered with `(bodyLabel, exitLabel)`,
  body label, body, `Goto(entry)`, exit label, then pops both stacks;
* `ir_break_statement` / `ir_continue_statement` emit a `Goto` to the top
  of the respective stack, or report a diagnostic and fail when the stack
  is empty, emitting nothing;
* `ir_block` lowers its children in order, splicing their instructions;
* a call statement runs `ir_function_call` and discards the value. -/
def lowerStmt (ctx : FuncCtx) : Stmt → GenSt → Except String (List Instr × GenSt)
  | .assign lhs rhs, s =>
    match lowerLVal lhs s.counter with
    | .error msg => .error msg
    | .ok (lcode, lop, k1) =>
      let (rcode, rop, k2) := lowerExpr rhs k1
      .ok (rcode ++ lcode ++ [.move lop rop], { s with counter := k2 })
  | .retS oe, s =>
    match oe, ctx.retSlot with
    | some e, some r =>
      let (ec, eo, k1) := lowerExpr e s.counter
      .ok (ec ++ [.move (.temp r) eo, .goto ctx.exitLabel], { s with counter := k1 })
    | none, some _ =>
      .ok ([.goto ctx.exitLabel], s)
    | some e, none =>
      let (ec, _, k1) := lowerExpr e s.counter
      .ok (ec ++ [.goto ctx.exitLabel], { s with counter := k1 })
    | none, none => .ok ([.goto ctx.exitLabel], s)
  | .ifS c t, s =>
    let thenL := s.counter
    let endL := s.counter + 1
    let (cc, k1) := lowerCond c thenL endL (s.counter + 2)
    match lowerStmt ctx t { s with counter := k1 } with
    | .error msg => .error msg
    | .ok (tc, s1) => .ok (cc ++ Instr.label thenL :: tc ++ [Instr.label endL], s1)
  | .ifElseS c t e, s =>
    let thenL := s.counter
    let elseL := s.counter + 1
    let endL := s.counter + 2
    let (cc, k1) := lowerCond c thenL elseL (s.counter + 3)
    match lowerStmt ctx t { s with counter := k1 } with
    | .error msg => .error msg
    | .ok (tc, s1) =>
      match lowerStmt ctx e s1 with
      | .error msg => .error msg
      | .ok (ec, s2) =>
        .ok (cc ++ Instr.label thenL :: tc ++ Instr.goto endL :: Instr.label elseL ::
          (ec ++ [Instr.label endL]), s2)
  | .whileS c b, s =>
    let entryL := s.counter
    let bodyL := s.counter + 1
    let exitL := s.counter + 2
    let (cc, k1) := lowerCond c bodyL exitL (s.counter + 3)
    let s0 : GenSt := { counter := k1,
                        breakLabels := exitL :: s.breakLabels,
                        continueLabels := entryL :: s.continueLabels }
    match lowerStmt ctx b s0 with
    | .error msg => .error msg
    | .ok (bc, s1) =>
      let s2 : GenSt := { counter := s1.counter,
                          breakLabels := s1.breakLabels.tail,
                          continueLabels := s1.continueLabels.tail }
      .ok (Instr.label entryL :: (cc ++ Instr.label bodyL :: (bc ++
        [Instr.goto entryL, Instr.label exitL])), s2)
  | .breakS, s =>
    match s.breakLabels with
    | [] => .error "break statement outside any loop"
    | l :: _ => .ok ([.goto l], s)
  | .continueS, s =>
    match s.continueLabels with
    | [] => .error "continue statement outside any loop"
    | l :: _ => .ok ([.goto l], s)
  | .block stmts, s => lowerStmts ctx stmts s
  | .callS callee lineno argExprs, s =>
    match lowerCall ctx.funcs callee lineno argExprs s.counter with
    | .error msg => .error msg
    | .ok (code, _, k1) => .ok (code, { s with counter := k1 })

/-- `ir_block`: lower each child in order, splicing its instructions;
the first failing child aborts the block. -/
def lowerStmts (ctx : FuncCtx) : List Stmt → GenSt → Except String (List Instr × GenSt)
  | [], s => .ok ([], s)
  | t :: ts, s =>
    match lowerStmt ctx t s with
    | .error msg => .error msg
    | .ok (c1, s1) =>
      match lowerStmts ctx ts s1 with
      | .error msg => .error msg
      | .ok (c2, s2) => .ok (c1 ++ c2, s2)

end

/-- The formal-parameter binding moves of `ir_function_formal_params`:
each parameter is copied from its ABI-visible `FormalParam` into a local
variable of the same name at function entry. -/
def paramMoves (params : List String) : List Instr :=
  params.enum.map fun p => Instr.move (.var p.2) (.param p.1)

/-- `ir_function_define`: reject a nested definition (a function is
already current) and a redefinition; allocate the exit label; create the
return-value slot when the return type is non-void, and for a non-void
function named `main` put `Move(retSlot, 0)` into the instruction list
right after `Entry`, before any body instruction; then the parameter
binding moves, the lowered body, the exit label and the `Exit`
instruction carrying the return slot. -/
def lowerFunctionDefine (curFuncActive : Bool) (funcs : List FuncSig)
    (fname : String) (retVoid : Bool) (params : List String)
    (body : List Stmt) (k : Nat) : Except String (List Instr × Nat) :=
  if curFuncActive then .error "nested function definition"
  else if (funcs.find? (fun g => g.name == fname)).isSome then
    .error ("function " ++ fname ++ " already defined")
  else
    let exitL := k
    let retSlot : Option Nat := if retVoid then none else some (k + 1)
    let prologue : List Instr :=
      if !retVoid && fname == "main" then [.move (.temp (k + 1)) (.cst 0)] else []
    let bodyStart := if retVoid then k + 1 else k + 2
    match lowerStmts { funcs := funcs, exitLabel := exitL, retSlot := retSlot }
        body { counter := bodyStart, breakLabels := [], continueLabels := [] } with
    | .error msg => .error msg
    | .ok (bodyInsts, s') =>
      .ok (Instr.entry :: (prologue ++ paramMoves params ++ bodyInsts ++
        [Instr.label exitL, Instr.exitI (retSlot.map Operand.temp)]), s'.counter)

/-- Does an instruction write the temporary `r`? -/
def writesTemp : Instr → Nat → Prop
  | .binary d _ _ _, r => d = r
  | .unary d _ _, r => d = r
  | .move (.temp t) _, r => t = r
  | .funcCall d _ _, r => d = r
  | _, _ => False

/-- Zero-invariant: along any execution in which every visited
instruction that writes `r` is the constant-zero move into `r`, once the
temporary `r` holds 0 it keeps holding 0. -/
theorem Path.retZero {P : List Instr} {args : Nat → Int} {r : Nat} :
    ∀ {c : Cfg} {vs : List Nat} {c' : Cfg},
    Path P args c vs c' →
    (∀ p ∈ vs, ∀ inst, P[p]? = some inst → writesTemp inst r →
      inst = .move (.temp r) (.cst 0)) →
    c.m.tenv r = 0 → c'.m.tenv r = 0 := by
  intro c vs c' hpath
  induction hpath with
  | refl => intro _ h0; exact h0
  | cons hs hp ih =>
    intro hw h0
    rename_i c c1 c2 vs'
    refine ih (fun p hp' => hw p (List.mem_cons_of_mem _ hp')) ?_
    have hhead := hw c.pc (List.mem_cons_self ..)
    cases hs with
    | entry hi => exact h0
    | lbl hi => exact h0
    | goto hi hf => exact h0
    | condT hi hc hf => exact h0
    | condF hi hc hf => exact h0
    | binary hi =>
      rename_i pc m d op a b
      by_cases hd : d = r
      · subst hd
        have := hhead _ hi (by simp [writesTemp])
        cases this
      · show (writeTemp m d _).tenv r = 0
        rw [writeTemp_other _ _ (fun he => hd he.symm)]
        exact h0
    | unaryNeg hi =>
      rename_i pc m d a
      by_cases hd : d = r
      · subst hd
        have := hhead _ hi (by simp [writesTemp])
        cases this
      · show (writeTemp m d _).tenv r = 0
        rw [writeTemp_other _ _ (fun he => hd he.symm)]
        exact h0
    | unaryDeref hi =>
      rename_i pc m d a
      by_cases hd : d = r
      · subst hd
        have := hhead _ hi (by simp [writesTemp])
        cases this
      · show (writeTemp m d _).tenv r = 0
        rw [writeTemp_other _ _ (fun he => hd he.symm)]
        exact h0
    | moveTemp hi =>
      rename_i pc m t src
      by_cases hd : t = r
      · subst hd
        have := hhead _ hi (by simp [writesTemp])
        rw [Instr.move.injEq, Operand.temp.injEq] at this
        obtain ⟨-, hsrc⟩ := this
        subst hsrc
        show (writeTemp m t _).tenv t = 0
        rw [writeTemp_self]
        rfl
      · show (writeTemp m t _).tenv r = 0
        rw [writeTemp_other _ _ (fun he => hd he.symm)]
        exact h0
    | moveVar hi => exact h0
    | call hi =>
      rename_i pc m d g as
      by_cases hd : d = r
      · subst hd
        have := hhead _ hi (by simp [writesTemp])
        cases this
      · show (writeTemp m d _).tenv r = 0
        rw [writeTemp_other _ _ (fun he => hd he.symm)]
        exact h0

set_option maxHeartbeats 1000000 in
/-- C2: for a function named `main` with a non-void return type,
lowering inserts `Move(retSlot, 0)` into the instruction list directly
after `Entry` — before any parameter-binding or body instruction — and
consequently every control path that reaches the exit label without
executing another write of the return slot (in particular, without an
explicit `return`, which lowers to a `Move` into the slot) ends with the
return slot equal to 0. -/
theorem main_implicit_return_zero :
    ∀ (funcs : List FuncSig) (params : List String) (body : List Stmt)
      (k : Nat) (code : List Instr) (k' : Nat),
    lowerFunctionDefine false funcs "main" false params body k = .ok (code, k') →
    ∃ (bodyInsts : List Instr) (s' : GenSt),
      lowerStmts { funcs := funcs, exitLabel := k, retSlot := some (k + 1) } body
        { counter := k + 2, breakLabels := [], continueLabels := [] } =
        .ok (bodyInsts, s') ∧
      code = Instr.entry :: Instr.move (.temp (k + 1)) (.cst 0) ::
        (paramMoves params ++ bodyInsts ++
          [Instr.label k, Instr.exitI (some (.temp (k + 1)))]) ∧
      (∀ (args : Nat → Int) (m : Mach) (vs : List Nat) (m' : Mach),
        Path code args ⟨0, m⟩ vs ⟨code.length - 2, m'⟩ →
        (∀ p ∈ vs, p ≠ 1 → ∀ inst, code[p]? = some inst →
          ¬writesTemp inst (k + 1)) →
        m'.tenv (k + 1) = 0) := by
  intro funcs params body k code k' h
  rw [lowerFunctionDefine] at h
  simp only [if_false, Bool.not_false, Bool.true_and, beq_self_eq_true, ite_true,
    if_true, Bool.false_eq_true] at h
  by_cases hdup : (funcs.find? (fun g => g.name == "main")).isSome
  · rw [if_pos hdup] at h; cases h
  · rw [if_neg hdup] at h
    rcases hbody : lowerStmts { funcs := funcs, exitLabel := k, retSlot := some (k + 1) }
        body { counter := k + 2, breakLabels := [], continueLabels := [] } with
      msg | r
    · rw [hbody] at h; cases h
    · obtain ⟨bodyInsts, s'⟩ := r
      rw [hbody] at h
      simp only [Except.ok.injEq, Prod.mk.injEq] at h
      obtain ⟨hcode, -⟩ := h
      refine ⟨bodyInsts, s', rfl, hcode.symm, ?_⟩
      intro args m vs m' hpath hw
      have hc0 : code[0]? = some Instr.entry := by rw [← hcode]; simp
      have hc1 : code[1]? = some (Instr.move (.temp (k + 1)) (.cst 0)) := by
        rw [← hcode]; simp
      have hlen : 4 ≤ code.length := by
        rw [← hcode]
        simp only [List.length_cons, List.length_append]
        omega
      generalize hpe : code.length - 2 = pE at hpath
      have hpE2 : 2 ≤ pE := by omega
      cases hpath with
      | refl => omega
      | cons hs1 hp1 =>
        rename_i c1 vs1
        have hc1eq : c1 = ⟨1, m⟩ := by
          cases hs1 <;> simp_all
        subst hc1eq
        cases hp1 with
        | refl => omega
        | cons hs2 hp2 =>
          rename_i c2 vs2
          have hc2eq : c2 = ⟨2, writeTemp m (k + 1) (evalOp args m (.cst 0))⟩ := by
            cases hs2 <;> simp_all [Option.some_inj]
          subst hc2eq
          refine hp2.retZero ?_ ?_
          · intro p hp' inst hinst hwr
            by_cases hp1' : p = 1
            · subst hp1'
              rw [hc1] at hinst
              exact (Option.some_inj.1 hinst).symm
            · exact absurd hwr (hw p (by simp [hp']) hp1' inst hinst)
          · show (writeTemp m (k + 1) _).tenv (k + 1) = 0
            rw [writeTemp_self]
            rfl

/-- Witness for C2: the empty-bodied `int main()` at counter 0, whose
lowering is `[Entry, Move(t1, 0), Label 0, Exit t1]`. -/
theorem main_implicit_return_zero_witness :
    ∃ (bodyInsts : List Instr) (s' : GenSt),
      lowerStmts { funcs := [], exitLabel := 0, retSlot := some 1 } []
        { counter := 2, breakLabels := [], continueLabels := [] } =
        .ok (bodyInsts, s') ∧
      [Instr.entry, Instr.move (.temp 1) (.cst 0), Instr.label 0,
        Instr.exitI (some (.temp 1))] =
        Instr.entry :: Instr.move (.temp 1) (.cst 0) ::
          (paramMoves [] ++ bodyInsts ++
            [Instr.label 0, Instr.exitI (some (.temp 1))]) ∧
      (∀ (args : Nat → Int) (m : Mach) (vs : List Nat) (m' : Mach),
        Path [Instr.entry, Instr.move (.temp 1) (.cst 0), Instr.label 0,
          Instr.exitI (some (.temp 1))] args ⟨0, m⟩ vs
          ⟨[Instr.entry, Instr.move (.temp 1) (.cst 0), Instr.label 0,
            Instr.exitI (some (.temp 1))].length - 2, m'⟩ →
        (∀ p ∈ vs, p ≠ 1 → ∀ inst,
          [Instr.entry, Instr.move (.temp 1) (.cst 0), Instr.label 0,
            Instr.exitI (some (.temp 1))][p]? = some inst →
          ¬writesTemp inst 1) →
        m'.tenv 1 = 0) :=
  main_implicit_return_zero [] [] [] 0
    [Instr.entry, Instr.move (.temp 1) (.cst 0), Instr.label 0,
      Instr.exitI (some (.temp 1))] 2
    (by simp [lowerFunctionDefine, lowerStmts, List.find?, paramMoves, List.enum])

/-- Auxiliary: the argument walk collects exactly one value per actual. -/
theorem lowerArgs_length :
    ∀ (es : List Expr) (k : Nat), (lowerArgs es k).2.1.length = es.length := by
  intro es
  induction es with
  | nil => intro k; rfl
  | cons e rest ih =>
    intro k
    rcases h1 : lowerExpr e k with ⟨c, o, k1⟩
    simp only [lowerArgs, h1]
    simpa using ih k1

/-- C7: the instruction sequence emitted for an assignment is: all
instructions computing the right-hand side, then all instructions
computing the left-hand side (the target address), and last the `Move`
that writes the value into the target — even though `ir_assign` visits
the left-hand side first (so the left-hand side draws the earlier fresh
names). -/
theorem assign_emits_rhs_before_lhs :
    ∀ (ctx : FuncCtx) (lhs : LVal) (rhs : Expr) (s : GenSt)
      (insts : List Instr) (s' : GenSt),
    lowerStmt ctx (.assign lhs rhs) s = .ok (insts, s') →
    ∃ (lcode : List Instr) (lop : Operand) (k1 : Nat)
      (rcode : List Instr) (rop : Operand) (k2 : Nat),
      lowerLVal lhs s.counter = .ok (lcode, lop, k1) ∧
      lowerExpr rhs k1 = (rcode, rop, k2) ∧
      insts = rcode ++ lcode ++ [.move lop rop] ∧
      s' = { s with counter := k2 } := by
  intro ctx lhs rhs s insts s' h
  rw [lowerStmt] at h
  rcases hl : lowerLVal lhs s.counter with msg | ⟨lcode, lop, k1⟩
  · rw [hl] at h; cases h
  · rw [hl] at h
    dsimp only at h
    rcases hr : lowerExpr rhs k1 with ⟨rcode, rop, k2⟩
    rw [hr] at h
    dsimp only at h
    simp only [Except.ok.injEq, Prod.mk.injEq] at h
    obtain ⟨hi, hs'⟩ := h
    exact ⟨lcode, lop, k1, rcode, rop, k2, rfl, hr, hi.symm, hs'.symm⟩

/-- Witness for C7 at `x = 5` in an empty context. -/
theorem assign_emits_rhs_before_lhs_witness :
    ∃ (lcode : List Instr) (lop : Operand) (k1 : Nat)
      (rcode : List Instr) (rop : Operand) (k2 : Nat),
      lowerLVal (.lvar "x") 0 = .ok (lcode, lop, k1) ∧
      lowerExpr (.lit 5) k1 = (rcode, rop, k2) ∧
      [Instr.move (.var "x") (.cst 5)] = rcode ++ lcode ++ [.move lop rop] ∧
      ({ counter := 0, breakLabels := [], continueLabels := [] } : GenSt) =
        { counter := k2, breakLabels := [], continueLabels := [] } :=
  assign_emits_rhs_before_lhs { funcs := [], exitLabel := 0, retSlot := none }
    (.lvar "x") (.lit 5) { counter := 0, breakLabels := [], continueLabels := [] }
    [Instr.move (.var "x") (.cst 5)]
    { counter := 0, breakLabels := [], continueLabels := [] }
    (by rw [lowerStmt, lowerLVal]; rfl)

/-- C8: `break` lowers to exactly `Goto(top of the break-label stack)`
and `continue` to exactly `Goto(top of the continue-label stack)`; with
the respective stack empty, the handler reports a diagnostic and fails,
emitting no instruction at all. -/
theorem break_continue_lowering :
    ∀ (ctx : FuncCtx) (s : GenSt),
    (∀ l rest, s.breakLabels = l :: rest →
      lowerStmt ctx .breakS s = .ok ([.goto l], s)) ∧
    (s.breakLabels = [] →
      lowerStmt ctx .breakS s = .error "break statement outside any loop") ∧
    (∀ l rest, s.continueLabels = l :: rest →
      lowerStmt ctx .continueS s = .ok ([.goto l], s)) ∧
    (s.continueLabels = [] →
      lowerStmt ctx .continueS s = .error "continue statement outside any loop") := by
  intro ctx s
  refine ⟨?_, ?_, ?_, ?_⟩
  · intro l rest hl; rw [lowerStmt, hl]
  · intro hl; rw [lowerStmt, hl]
  · intro l rest hl; rw [lowerStmt, hl]
  · intro hl; rw [lowerStmt, hl]

/-- Witness for C8: stacks `[5]`/`[6]` give `Goto 5` / `Goto 6`, empty
stacks give the diagnostics. -/
theorem break_continue_lowering_witness :
    lowerStmt { funcs := [], exitLabel := 0, retSlot := none } .breakS
      { counter := 0, breakLabels := [5], continueLabels := [6] } =
      .ok ([.goto 5], { counter := 0, breakLabels := [5], continueLabels := [6] }) ∧
    lowerStmt { funcs := [], exitLabel := 0, retSlot := none } .breakS
      { counter := 0, breakLabels := [], continueLabels := [] } =
      .error "break statement outside any loop" ∧
    lowerStmt { funcs := [], exitLabel := 0, retSlot := none } .continueS
      { counter := 0, breakLabels := [5], continueLabels := [6] } =
      .ok ([.goto 6], { counter := 0, breakLabels := [5], continueLabels := [6] }) ∧
    lowerStmt { funcs := [], exitLabel := 0, retSlot := none } .continueS
      { counter := 0, breakLabels := [], continueLabels := [] } =
      .error "continue statement outside any loop" :=
  ⟨(break_continue_lowering { funcs := [], exitLabel := 0, retSlot := none }
      { counter := 0, breakLabels := [5], continueLabels := [6] }).1 5 [] rfl,
    (break_continue_lowering { funcs := [], exitLabel := 0, retSlot := none }
      { counter := 0, breakLabels := [], continueLabels := [] }).2.1 rfl,
    (break_continue_lowering { funcs := [], exitLabel := 0, retSlot := none }
      { counter := 0, breakLabels := [5], continueLabels := [6] }).2.2.1 6 [] rfl,
    (break_continue_lowering { funcs := [], exitLabel := 0, retSlot := none }
      { counter := 0, breakLabels := [], continueLabels := [] }).2.2.2 rfl⟩

/-- C9: when the number of actuals differs from the callee's declared
formal count, `ir_function_call` reports a semantic error carrying the
call site's line number and fails, so no `FuncCall` instruction is
created, and the lowering of the enclosing statement fails too — no
instruction list at all is produced for it. -/
theorem call_arity_mismatch_fails :
    ∀ (funcs : List FuncSig) (sig : FuncSig) (callee : String) (lineno : Int)
      (argExprs : List Expr) (k : Nat),
    funcs.find? (fun g => g.name == callee) = some sig →
    argExprs.length ≠ sig.arity →
    lowerCall funcs callee lineno argExprs k =
      .error (arityErrorMsg lineno callee sig.arity argExprs.length) ∧
    (∀ (ctx : FuncCtx) (s : GenSt), ctx.funcs = funcs → s.counter = k →
      lowerStmt ctx (.callS callee lineno argExprs) s =
        .error (arityErrorMsg lineno callee sig.arity argExprs.length)) := by
  intro funcs sig callee lineno argExprs k hfind hmis
  have hcall : lowerCall funcs callee lineno argExprs k =
      .error (arityErrorMsg lineno callee sig.arity argExprs.length) := by
    rw [lowerCall, hfind]
    dsimp only
    rcases ha : lowerArgs argExprs k with ⟨argCode, argOps, k1⟩
    have hlen : argOps.length = argExprs.length := by
      have := lowerArgs_length argExprs k
      rw [ha] at this
      exact this
    dsimp only
    rw [hlen, if_pos hmis]
  refine ⟨hcall, ?_⟩
  intro ctx s hctx hs
  rw [lowerStmt, hctx, hs, hcall]

/-- Witness for C9: calling a 2-parameter function `f` with one actual
at line 7. -/
theorem call_arity_mismatch_fails_witness :
    lowerCall [{ name := "f", arity := 2 }] "f" 7 [.lit 1] 0 =
      .error (arityErrorMsg 7 "f" 2 1) ∧
    (∀ (ctx : FuncCtx) (s : GenSt),
      ctx.funcs = [{ name := "f", arity := 2 }] → s.counter = 0 →
      lowerStmt ctx (.callS "f" 7 [.lit 1]) s = .error (arityErrorMsg 7 "f" 2 1)) :=
  call_arity_mismatch_fails [{ name := "f", arity := 2 }] { name := "f", arity := 2 }
    "f" 7 [.lit 1] 0 (by simp [List.find?]) (by decide)

/-! ## `GlobalVariable` (`GlobalVariable.h`) -/

/-- The `GlobalVariable` value class: source name, rendered type, the
load register number, the BSS flag (true on construction: "by default a
global variable is in the BSS section"), the initial-value pointer
(`initVal`, modelled as the referenced `ConstInt`'s integer, `none` for
null) and the `isInitialized` flag (false on construction). -/
structure GlobalVariable where
  name : String
  typeStr : String
  loadRegNo : Int := -1
  inBSSSection : Bool := true
  initVal : Option Int := none
  isInitialized : Bool := false
  deriving DecidableEq, Repr

/-- The constructor `GlobalVariable(type, name)`: sets 4-byte alignment
(not modelled) and leaves every flag at its declared default. -/
def mkGlobalVariable (t : String) (nm : String) : GlobalVariable :=
  { name := nm, typeStr := t }

/-- `GlobalVariable::isInBSSSection`. -/
def GlobalVariable.isInBSSSection (g : GlobalVariable) : Bool :=
  g.inBSSSection

/-- `GlobalVariable::setInitValue`: store the value; a non-null value
takes the variable out of the BSS section. -/
def GlobalVariable.setInitValue (g : GlobalVariable) (val : Option Int) :
    GlobalVariable :=
  if val.isSome then { g with initVal := val, inBSSSection := false }
  else { g with initVal := val }

/-- `GlobalVariable::setIsInitialized`. -/
def GlobalVariable.setIsInitialized (g : GlobalVariable) (b : Bool) :
    GlobalVariable :=
  { g with isInitialized := b }

/-- `GlobalVariable::toDeclareString` (the array-dimension suffix is not
modelled; no claim concerns it). -/
def GlobalVariable.toDeclareString (g : GlobalVariable) : String :=
  "declare " ++ g.typeStr ++ " " ++ g.name

/-- `GlobalVariable::toInitString`: append " = <IR name of initVal>"
exactly when `isInitialized` is set.  (With the flag set, the C++
dereferences `initVal` unconditionally; the generator sets the flag only
together with `setInitValue`, so the null case — returned unchanged
here — is unreachable from the lowering.) -/
def GlobalVariable.toInitString (g : GlobalVariable) (str : String) : String :=
  if g.isInitialized then
    match g.initVal with
    | some v => str ++ " = " ++ toString v
    | none => str
  else str

/-- C10: a freshly constructed `GlobalVariable` reports
`isInBSSSection() = true`; after `setInitValue` with a non-null value it
reports `false`; `toInitString` appends the textual " = <literal>"
suffix exactly when the variable has been marked initialized, so a
never-initialized global keeps the bare declare form. -/
theorem globalVariable_bss_and_init :
    (∀ t nm, (mkGlobalVariable t nm).isInBSSSection = true) ∧
    (∀ (g : GlobalVariable) (v : Int),
      (g.setInitValue (some v)).isInBSSSection = false) ∧
    (∀ (g : GlobalVariable) (str : String), g.isInitialized = false →
      g.toInitString str = str) ∧
    (∀ (g : GlobalVariable) (str : String) (v : Int), g.isInitialized = true →
      g.initVal = some v → g.toInitString str = str ++ " = " ++ toString v) ∧
    (∀ t nm str, (mkGlobalVariable t nm).toInitString str = str) := by
  refine ⟨fun t nm => rfl, fun g v => rfl, ?_, ?_, fun t nm str => rfl⟩
  · intro g str h
    simp [GlobalVariable.toInitString, h]
  · intro g str v h hv
    simp [GlobalVariable.toInitString, h, hv]

/-- Witness for C10 on a fresh `i32` global `a`, then initialized
with 5. -/
theorem globalVariable_bss_and_init_witness :
    (mkGlobalVariable "i32" "a").isInBSSSection = true ∧
    ((mkGlobalVariable "i32" "a").setInitValue (some 5)).isInBSSSection = false ∧
    (mkGlobalVariable "i32" "a").toInitString "declare i32 a" = "declare i32 a" ∧
    (((mkGlobalVariable "i32" "a").setInitValue (some 5)).setIsInitialized
        true).toInitString "declare i32 a" =
      "declare i32 a" ++ " = " ++ toString (5 : Int) :=
  ⟨globalVariable_bss_and_init.1 "i32" "a",
    globalVariable_bss_and_init.2.1 (mkGlobalVariable "i32" "a") 5,
    globalVariable_bss_and_init.2.2.1 (mkGlobalVariable "i32" "a") "declare i32 a" rfl,
    globalVariable_bss_and_init.2.2.2.1
      (((mkGlobalVariable "i32" "a").setInitValue (some 5)).setIsInitialized true)
      "declare i32 a" 5 rfl rfl⟩

/-! ## Global variable declaration with initializer
(`ir_variable_declare`, global branch) and the undefined-variable
handler (`ir_leaf_node_var_id`) -/

/-- The initializer shapes `ir_variable_declare` distinguishes at global
scope: a literal, or an `AST_OP_NEG` node over a literal. -/
inductive InitExpr where
  | ilit (n : Int)
  | inegLit (n : Int)
  deriving DecidableEq, Repr

/-- The function-local `static Value * initVal` in
`ir_variable_declare`'s negated-literal branch: a C++ function-local
`static` is initialized the first time control passes through its
declaration and keeps that first value on every later execution.
`none` models the not-yet-initialized state of a fresh run. -/
structure DeclareStaticState where
  staticInitVal : Option Int
  deriving DecidableEq, Repr

/-- Global-scope variable declaration with initializer
(`ir_variable_declare`, `module->getCurrentFunction() == nullptr`
branch): an `AST_OP_NEG` initializer folds `-literal` to a constant —
but the constant lives in the `static` local, so only the first
execution computes the fold and every later negated-literal declaration
reuses the first constant; a plain literal initializer stores its own
constant.  Both paths mark the global initialized. -/
def lowerGlobalVarDecl (st : DeclareStaticState) (g : GlobalVariable)
    (ie : InitExpr) : DeclareStaticState × GlobalVariable :=
  match ie with
  | .inegLit n =>
    match st.staticInitVal with
    | some v => (st, (g.setInitValue (some v)).setIsInitialized true)
    | none =>
      let v := -n
      ({ staticInitVal := some v }, (g.setInitValue (some v)).setIsInitialized true)
  | .ilit n => (st, (g.setInitValue (some n)).setIsInitialized true)

/-- C5 (failing run): lowering `int a = -1; int b = -2;` at global scope
in a fresh translation unit.  The first declaration folds and stores −1
as `a`'s initial value, but the folded constant lives in a
function-local `static`, so the second declaration stores −1 as `b`'s
initial value as well, not −2: the claimed per-declaration independence
fails on the code. -/
theorem global_negated_literal_static_capture :
    (lowerGlobalVarDecl { staticInitVal := none } (mkGlobalVariable "i32" "a")
      (.inegLit 1)).2.initVal = some (-1) ∧
    (lowerGlobalVarDecl
        (lowerGlobalVarDecl { staticInitVal := none } (mkGlobalVariable "i32" "a")
          (.inegLit 1)).1
        (mkGlobalVariable "i32" "b") (.inegLit 2)).2.initVal = some (-1) ∧
    some (-1 : Int) ≠ some (-2 : Int) :=
  ⟨rfl, rfl, by decide⟩

/-- Modelled from the spec: `Module::findVarValue` is not under `src/`;
per the spec, "`findVarValue(name)` searches inner→outer, returning the
first match" over the LIFO scope stack — hence null for a name no scope
defines.  Scopes are name→value maps; values are identified by a
numeric id. -/
def findVarValue (scopes : List (List (String × Nat))) (nm : String) : Option Nat :=
  match scopes with
  | [] => none
  | sc :: outer =>
    match sc.find? (fun p => p.1 == nm) with
    | some p => some p.2
    | none => findVarValue outer nm

/-- `IRGenerator::ir_leaf_node_var_id`: look the identifier up and store
the result — possibly null — as the node's value, then return `true`
unconditionally: no check, no diagnostic, no failure. -/
def ir_leaf_node_var_id (scopes : List (List (String × Nat))) (nm : String) :
    Bool × Option Nat :=
  (true, findVarValue scopes nm)

/-- C4 (failing run): the handler for a reference to the undefined
variable `x` (no scope defines it) returns success (`true`) together
with a null value: it reports no semantic error and returns no boolean
failure, so nothing propagates up to fail the enclosing construct —
contrary to the claim. -/
theorem undefined_var_reference_returns_success :
    ir_leaf_node_var_id [[("y", 0)]] "x" = (true, none) ∧
    ir_leaf_node_var_id [] "x" = (true, none) :=
  ⟨rfl, rfl⟩

/-! ## Value-mode logical not (`ir_logical_not`, value overload) -/

/-- Value-mode `ir_logical_not` (`!x` as an r-value): allocate true,
false and end labels and a result variable (in that order); for a *leaf*
operand emit `cmp_eq(operand, 0)` and a `CondGoto`, then the true label,
`Move(result, 1)`, `Goto(end)`, the false label, `Move(result, 0)` and
the end label, and yield the result variable.  For a compound operand
the handler only lowers the operand with the two labels swapped and
returns: the allocated labels are never emitted, no 0/1 write is
produced, and the node's value stays null (`none`). -/
def lowerNotVal (a : Cond) (k : Nat) : List Instr × Option Operand × Nat :=
  let T := k
  let F := k + 1
  let E := k + 2
  let v := k + 3
  match a with
  | .atom (.lit n) =>
    ([.binary (k + 4) .cmpEq (.cst n) (.cst 0), .condGoto (.temp (k + 4)) T F,
      .label T, .move (.temp v) (.cst 1), .goto E,
      .label F, .move (.temp v) (.cst 0), .label E], some (.temp v), k + 5)
  | .atom (.evar s) =>
    ([.binary (k + 4) .cmpEq (.var s) (.cst 0), .condGoto (.temp (k + 4)) T F,
      .label T, .move (.temp v) (.cst 1), .goto E,
      .label F, .move (.temp v) (.cst 0), .label E], some (.temp v), k + 5)
  | _ =>
    let (code, k') := lowerCond a F T (k + 4)
    (code, none, k')

/-- C6 (failing run): value-mode lowering of `!(x && y)` — a compound
operand — emits only the operand's label-mode code: the node's value is
null (`none`), the emitted list contains no `Move` at all (so no 0/1
materialization), and of the allocated labels 0 (true), 1 (false) and 2
(end) none is emitted — the only label in the list is the internal
right-operand label 4, while the `CondGoto`s target the never-emitted
labels 0 and 1 — contrary to the claimed behaviour for every operand
shape. -/
theorem logical_not_value_mode_compound_broken :
    lowerNotVal (.andC (.atom (.evar "x")) (.atom (.evar "y"))) 0 =
      ([.binary 5 .cmpNe (.var "x") (.cst 0), .condGoto (.temp 5) 4 0,
        .label 4,
        .binary 6 .cmpNe (.var "y") (.cst 0), .condGoto (.temp 6) 1 0],
        none, 7) ∧
    (∀ dst src, Instr.move dst src ∉
      (lowerNotVal (.andC (.atom (.evar "x")) (.atom (.evar "y"))) 0).1) ∧
    labelsOf (lowerNotVal (.andC (.atom (.evar "x")) (.atom (.evar "y"))) 0).1 =
      [4] := by
  refine ⟨rfl, ?_, rfl⟩
  intro dst src h
  simp [lowerNotVal, lowerCond, lowerExpr, stripNegs] at h

end MiniC
